import Mathlib

/-!
# Verification of the pysweep sweep-object algebra and spyview storage pipeline

This file gives a shallow embedding, in Lean 4, of the parts of the
`pysweep` code base that the specification's testable claims are about:

* `pysweep/utils.py` : the `DictMerge` per-key merge-strategy engine;
* `pysweep/sweep_object.py` : sweep primitives, measurement hooks
  (`BaseSweepObject._add_measurement_hooks`), the nested (Cartesian
  product) sweep (`NestedSweep`), the zipped sweep (`ZipSweep`) and the
  compound end-measurement accessor
  (`CompoundSweep._get_end_measurement_message`);
* `pysweep/data_storage/spyview.py` : `SpyviewWriter`, with
  `collapse_axis`, `_find_independent_parameters`, `_write_buffer` and
  `_reshape_dictionary`.

Python dictionaries are modelled as association lists with insertion-order
semantics (`dictSet` replaces an existing key in place and appends a new
key at the end, exactly as CPython dicts do).  JSON-like Python values are
modelled by the inductive type `PyVal`.  Fallible code is modelled in
`Except`.
-/

namespace PySweep

/-- A JSON-compatible Python value: the values that flow through the
measurement records of pysweep.  `none` models Python's `None` (which
`DictMerge._merge_two` stores when an unknown strategy name is met). -/
inductive PyVal where
  | none : PyVal
  | int : Int → PyVal
  | str : String → PyVal
  | bool : Bool → PyVal
  | list : List PyVal → PyVal
  | dict : List (String × PyVal) → PyVal
deriving Repr

mutual

/-- Decidable equality for `PyVal` (unfolded by hand because the nested
occurrences of `List` defeat the automatic derivation). -/
def PyVal.decEq : (a b : PyVal) → Decidable (a = b)
  | .none, .none => .isTrue rfl
  | .int a, .int b =>
    match Int.decEq a b with
    | .isTrue h => .isTrue (by rw [h])
    | .isFalse h => .isFalse (fun hh => h (by injection hh))
  | .str a, .str b =>
    match String.decEq a b with
    | .isTrue h => .isTrue (by rw [h])
    | .isFalse h => .isFalse (fun hh => h (by injection hh))
  | .bool a, .bool b =>
    match Bool.decEq a b with
    | .isTrue h => .isTrue (by rw [h])
    | .isFalse h => .isFalse (fun hh => h (by injection hh))
  | .list a, .list b =>
    match PyVal.decEqList a b with
    | .isTrue h => .isTrue (by rw [h])
    | .isFalse h => .isFalse (fun hh => h (by injection hh))
  | .dict a, .dict b =>
    match PyVal.decEqDict a b with
    | .isTrue h => .isTrue (by rw [h])
    | .isFalse h => .isFalse (fun hh => h (by injection hh))
  | .none, .int _ => .isFalse nofun
  | .none, .str _ => .isFalse nofun
  | .none, .bool _ => .isFalse nofun
  | .none, .list _ => .isFalse nofun
  | .none, .dict _ => .isFalse nofun
  | .int _, .none => .isFalse nofun
  | .int _, .str _ => .isFalse nofun
  | .int _, .bool _ => .isFalse nofun
  | .int _, .list _ => .isFalse nofun
  | .int _, .dict _ => .isFalse nofun
  | .str _, .none => .isFalse nofun
  | .str _, .int _ => .isFalse nofun
  | .str _, .bool _ => .isFalse nofun
  | .str _, .list _ => .isFalse nofun
  | .str _, .dict _ => .isFalse nofun
  | .bool _, .none => .isFalse nofun
  | .bool _, .int _ => .isFalse nofun
  | .bool _, .str _ => .isFalse nofun
  | .bool _, .list _ => .isFalse nofun
  | .bool _, .dict _ => .isFalse nofun
  | .list _, .none => .isFalse nofun
  | .list _, .int _ => .isFalse nofun
  | .list _, .str _ => .isFalse nofun
  | .list _, .bool _ => .isFalse nofun
  | .list _, .dict _ => .isFalse nofun
  | .dict _, .none => .isFalse nofun
  | .dict _, .int _ => .isFalse nofun
  | .dict _, .str _ => .isFalse nofun
  | .dict _, .bool _ => .isFalse nofun
  | .dict _, .list _ => .isFalse nofun

/-- Decidable equality for lists of `PyVal`. -/
def PyVal.decEqList : (a b : List PyVal) → Decidable (a = b)
  | [], [] => .isTrue rfl
  | [], _ :: _ => .isFalse nofun
  | _ :: _, [] => .isFalse nofun
  | x :: xs, y :: ys =>
    match PyVal.decEq x y with
    | .isFalse h => .isFalse (fun hh => h (by injection hh))
    | .isTrue h1 =>
      match PyVal.decEqList xs ys with
      | .isTrue h2 => .isTrue (by rw [h1, h2])
      | .isFalse h2 => .isFalse (fun hh => h2 (by injection hh))

/-- Decidable equality for string-keyed assoc lists of `PyVal`. -/
def PyVal.decEqDict : (a b : List (String × PyVal)) → Decidable (a = b)
  | [], [] => .isTrue rfl
  | [], _ :: _ => .isFalse nofun
  | _ :: _, [] => .isFalse nofun
  | (k1, v1) :: xs, (k2, v2) :: ys =>
    match String.decEq k1 k2 with
    | .isFalse h => .isFalse (fun hh => h (by injection hh with h1 h2; injection h1))
    | .isTrue hk =>
      match PyVal.decEq v1 v2 with
      | .isFalse h => .isFalse (fun hh => h (by injection hh with h1 h2; injection h1))
      | .isTrue hv =>
        match PyVal.decEqDict xs ys with
        | .isTrue h2 => .isTrue (by rw [hk, hv, h2])
        | .isFalse h2 => .isFalse (fun hh => h2 (by injection hh))

end

instance : DecidableEq PyVal := PyVal.decEq

/-- A Python dict with values of type `α`, as an insertion-ordered
association list. -/
abbrev Dict (α : Type) := List (String × α)

/-- `d[k]` lookup: the value at the first occurrence of key `k`. -/
def dictGet? {α : Type} (d : Dict α) (k : String) : Option α :=
  (d.find? (fun kv => kv.1 = k)).map (·.2)

/-- The value at the last occurrence of key `k` (on genuine Python dicts,
which never hold a duplicate key, this agrees with `dictGet?`). -/
def dictGetLast? {α : Type} (d : Dict α) (k : String) : Option α :=
  (d.reverse.find? (fun kv => kv.1 = k)).map (·.2)

/-- `d[k] = v` assignment, CPython semantics: an existing key keeps its
position and gets the new value; a fresh key is appended at the end. -/
def dictSet {α : Type} (d : Dict α) (k : String) (v : α) : Dict α :=
  if d.any (fun kv => kv.1 = k) then
    d.map (fun kv => if kv.1 = k then (k, v) else kv)
  else
    d ++ [(k, v)]

/-- `d1.update(d2)`: fold the entries of `d2` into `d1` (keys of `d2`
overwrite equal keys of `d1`). -/
def dictUpdate {α : Type} (d1 d2 : Dict α) : Dict α :=
  d2.foldl (fun acc kv => dictSet acc kv.1 kv.2) d1

theorem dictUpdate_nil {α : Type} (d : Dict α) : dictUpdate d [] = d := rfl

theorem dictGet?_dictSet {α : Type} (d : Dict α) (k : String) (v : α) (k' : String) :
    dictGet? (dictSet d k v) k' = if k' = k then some v else dictGet? d k' := by
  unfold dictSet dictGet?
  by_cases hk : d.any (fun kv => kv.1 = k)
  · rw [if_pos hk]
    by_cases hkk : k' = k
    · subst hkk
      rw [if_pos rfl]
      -- the first occurrence of `k'` in the mapped list carries `v`
      induction d with
      | nil => simp at hk
      | cons kv rest ih =>
        by_cases h1 : kv.1 = k'
        · simp [h1]
        · have hrest : rest.any (fun kv => decide (kv.1 = k')) = true := by
            simpa [List.any_cons, h1] using hk
          simpa [h1] using ih hrest
    · rw [if_neg hkk]
      -- keys other than `k` are untouched by the map
      clear hk
      induction d with
      | nil => rfl
      | cons kv rest ih =>
        by_cases h1 : kv.1 = k
        · have h2 : ¬ kv.1 = k' := by
            rw [h1]; exact fun h => hkk h.symm
          have h3 : ¬ k = k' := fun h => hkk h.symm
          simpa [h1, h2, h3] using ih
        · by_cases h2 : kv.1 = k'
          · simp [h1, h2, hkk]
          · simpa [h1, h2] using ih
  · rw [if_neg hk]
    have hnone : d.find? (fun kv => decide (kv.1 = k)) = none := by
      rw [List.find?_eq_none]
      intro x hx
      simp only [decide_eq_true_eq]
      intro h
      exact hk (List.any_eq_true.mpr ⟨x, hx, by simpa using h⟩)
    by_cases hkk : k' = k
    · subst hkk
      rw [if_pos rfl, List.find?_append, hnone]
      simp
    · rw [if_neg hkk, List.find?_append]
      have h3 : ¬ k = k' := fun h => hkk h.symm
      have h1 : List.find? (fun kv => decide (kv.1 = k')) [(k, v)] = Option.none := by
        simp [h3]
      rw [h1]
      simp

theorem dictGetLast?_cons {α : Type} (kv : String × α) (rest : Dict α) (k : String) :
    dictGetLast? (kv :: rest) k =
      match dictGetLast? rest k with
      | some v => some v
      | Option.none => if kv.1 = k then some kv.2 else Option.none := by
  unfold dictGetLast?
  rw [List.reverse_cons, List.find?_append]
  rcases h : (rest.reverse.find? fun x => decide (x.1 = k)) with _ | e
  · by_cases hkk : kv.1 = k <;> simp [h, hkk]
  · simp [h]

/-- `dictGet?` after a Python-style `update`: the last occurrence in `d2`
wins, otherwise the value comes from `d1`. -/
theorem dictGet?_dictUpdate {α : Type} (d1 d2 : Dict α) (k : String) :
    dictGet? (dictUpdate d1 d2) k =
      match dictGetLast? d2 k with
      | some v => some v
      | Option.none => dictGet? d1 k := by
  induction d2 generalizing d1 with
  | nil => rfl
  | cons kv rest ih =>
    show dictGet? (dictUpdate (dictSet d1 kv.1 kv.2) rest) k = _
    rw [ih, dictGetLast?_cons]
    rcases h : dictGetLast? rest k with _ | v
    · rw [dictGet?_dictSet]
      by_cases hkk : k = kv.1
      · simp [hkk]
      · have h4 : ¬ kv.1 = k := fun hh => hkk hh.symm
        simp [hkk, h4]
    · rfl

theorem isSome_dictGetLast? {α : Type} (d : Dict α) (k : String) :
    (dictGetLast? d k).isSome = (dictGet? d k).isSome := by
  unfold dictGet? dictGetLast?
  simp only [Option.isSome_map']
  by_cases h : ∃ x, x ∈ d ∧ (fun kv => decide (kv.1 = k)) x = true
  · have h1 : (d.find? (fun kv => decide (kv.1 = k))).isSome := List.find?_isSome.mpr h
    have h2 : (d.reverse.find? (fun kv => decide (kv.1 = k))).isSome := by
      rw [List.find?_isSome]
      obtain ⟨x, hx, hp⟩ := h
      exact ⟨x, List.mem_reverse.mpr hx, hp⟩
    rw [h1, h2]
  · have h1 : (d.find? (fun kv => decide (kv.1 = k))) = Option.none := by
      rw [List.find?_eq_none]
      intro x hx hp
      exact h ⟨x, hx, hp⟩
    have h2 : (d.reverse.find? (fun kv => decide (kv.1 = k))) = Option.none := by
      rw [List.find?_eq_none]
      intro x hx hp
      exact h ⟨x, List.mem_reverse.mp hx, hp⟩
    rw [h1, h2]

/-- Key membership after `update` is the union of key memberships. -/
theorem isSome_dictGet?_dictUpdate {α : Type} (d1 d2 : Dict α) (k : String) :
    (dictGet? (dictUpdate d1 d2) k).isSome ↔
      (dictGet? d1 k).isSome ∨ (dictGet? d2 k).isSome := by
  rw [dictGet?_dictUpdate]
  rcases h : dictGetLast? d2 k with _ | v
  · have := isSome_dictGetLast? d2 k
    rw [h] at this
    simp [← this]
  · have := isSome_dictGetLast? d2 k
    rw [h] at this
    simp [← this]



/-! ## `DictMerge` (`pysweep/utils.py`)

`DictMerge.__init__` stores a `defaultdict` of per-field strategy names
defaulting to `"dict_merge"`.  `_merge_two(d1, d2)` copies `d1` and folds
the items of `d2` into it, combining values of a shared key according to
the strategy registered for that key; `merge(dicts)` left-folds
`_merge_two` over the list, starting from a copy of `dicts[0]`.  The
recursion of the `"dict_merge"` strategy is not structural (it descends
into values of both arguments), so the Lean model carries a fuel
parameter; `fuelOut` is an artefact of that bound and is never produced
for the duplicate-free dicts Python can actually represent, given the
generous bound used by `DictMerge_merge`. -/

/-- Errors of the `DictMerge` model: `typeError` models Python's
`TypeError` raised by `dict(v)` / `v.items()` on a non-dict, `indexError`
models `dicts[0]` on an empty argument list, `fuelOut` is the fuel
artefact described above. -/
inductive MergeErr where
  | typeError : MergeErr
  | indexError : MergeErr
  | fuelOut : MergeErr
deriving DecidableEq, Repr

/-- `dict(v)` (and `v.items()`) as used by `_merge_two`: succeeds only on
actual dicts. -/
def asDict : PyVal → Except MergeErr (Dict PyVal)
  | .dict d => .ok d
  | _ => .error .typeError

/-- `DictMerge._make_list`. -/
def makeList : PyVal → List PyVal
  | .list l => l
  | v => [v]

/-- The strategy name for a field: the registered one, unregistered names
defaulting to `"dict_merge"` (the `defaultdict` in `DictMerge.__init__`). -/
def strategyFor (cfg : Dict String) (k : String) : String :=
  (dictGet? cfg k).getD "dict_merge"

/-- `DictMerge._merge_two`, fuelled.  `result = dict(d1)`; for each
`(k, v)` in `d2.items()`: if `k` is already present, combine according to
the strategy (`"append"` concatenates the listified values, `"replace"`
takes `v`, `"dict_merge"` recurses with arguments `(v, result[k])`, any
other name stores Python's `None`); else `result[k] = v`. -/
def mergeTwoF (cfg : Dict String) : Nat → PyVal → PyVal → Except MergeErr (Dict PyVal)
  | 0, _, _ => .error .fuelOut
  | fuel + 1, d1, d2 => do
    let l1 ← asDict d1
    let l2 ← asDict d2
    l2.foldlM (fun result kv =>
      match dictGet? result kv.1 with
      | some cur =>
        let s := strategyFor cfg kv.1
        if s = "append" then
          pure (dictSet result kv.1 (.list (makeList cur ++ makeList kv.2)))
        else if s = "replace" then
          pure (dictSet result kv.1 kv.2)
        else if s = "dict_merge" then do
          let m ← mergeTwoF cfg fuel kv.2 cur
          pure (dictSet result kv.1 (.dict m))
        else
          pure (dictSet result kv.1 PyVal.none)
      | Option.none => pure (dictSet result kv.1 kv.2)) l1

/-- The loop body of `_merge_two`, named for reasoning; definitionally the
function folded by `mergeTwoF cfg (fuel + 1)`. -/
def mergeStep (cfg : Dict String) (fuel : Nat) (result : Dict PyVal)
    (kv : String × PyVal) : Except MergeErr (Dict PyVal) :=
  match dictGet? result kv.1 with
  | some cur =>
    let s := strategyFor cfg kv.1
    if s = "append" then
      pure (dictSet result kv.1 (.list (makeList cur ++ makeList kv.2)))
    else if s = "replace" then
      pure (dictSet result kv.1 kv.2)
    else if s = "dict_merge" then do
      let m ← mergeTwoF cfg fuel kv.2 cur
      pure (dictSet result kv.1 (.dict m))
    else
      pure (dictSet result kv.1 PyVal.none)
  | Option.none => pure (dictSet result kv.1 kv.2)

theorem mergeTwoF_succ (cfg : Dict String) (fuel : Nat) (d1 d2 : PyVal) :
    mergeTwoF cfg (fuel + 1) d1 d2 = (do
      let l1 ← asDict d1
      let l2 ← asDict d2
      l2.foldlM (mergeStep cfg fuel) l1) := rfl

mutual

/-- Fuel bound: one unit per `dict`/`list` node of a `PyVal`. -/
def pyFuel : PyVal → Nat
  | .list l => pyFuelList l + 1
  | .dict d => pyFuelDict d + 1
  | _ => 1

/-- Fuel bound for a list of values. -/
def pyFuelList : List PyVal → Nat
  | [] => 1
  | v :: rest => pyFuel v + pyFuelList rest

/-- Fuel bound for a dict of values. -/
def pyFuelDict : List (String × PyVal) → Nat
  | [] => 1
  | kv :: rest => pyFuel kv.2 + pyFuelDict rest

end

/-- `DictMerge.merge`: `result = dict(dicts[0])`, then fold `_merge_two`
over the remaining dicts. -/
def DictMerge_merge (cfg : Dict String) (ds : List PyVal) : Except MergeErr (Dict PyVal) :=
  match ds with
  | [] => .error .indexError
  | d :: rest => do
    let r0 ← asDict d
    rest.foldlM (fun acc d2 => do
      let l2 ← asDict d2
      mergeTwoF cfg (pyFuelDict acc + pyFuelDict l2 + 1) (.dict acc) (.dict l2)) r0


/-- `mergeStep` consults the configuration only through `strategyFor`,
given that `mergeTwoF` does at the same fuel. -/
theorem mergeStep_congr_aux (cfg cfg2 : Dict String)
    (h : ∀ k, strategyFor cfg k = strategyFor cfg2 k) (fuel : Nat)
    (hTwo : ∀ d1 d2, mergeTwoF cfg fuel d1 d2 = mergeTwoF cfg2 fuel d1 d2) :
    ∀ result kv, mergeStep cfg fuel result kv = mergeStep cfg2 fuel result kv := by
  intro result kv
  unfold mergeStep
  rcases hg : dictGet? result kv.1 with _ | cur
  · rfl
  · simp only [h kv.1]
    by_cases h1 : strategyFor cfg2 kv.1 = "append"
    · simp [h1]
    · by_cases h2 : strategyFor cfg2 kv.1 = "replace"
      · simp [h1, h2]
      · by_cases h3 : strategyFor cfg2 kv.1 = "dict_merge"
        · simp only [h1, h2, h3, if_true, if_false]
          rw [hTwo]
        · simp [h1, h2, h3]

/-- `mergeTwoF` consults the configuration only through `strategyFor`:
leaving a field unregistered is indistinguishable from registering its
default. -/
theorem mergeTwoF_congr (cfg cfg2 : Dict String)
    (h : ∀ k, strategyFor cfg k = strategyFor cfg2 k) :
    ∀ fuel d1 d2, mergeTwoF cfg fuel d1 d2 = mergeTwoF cfg2 fuel d1 d2 := by
  intro fuel
  induction fuel with
  | zero => intro d1 d2; rfl
  | succ fuel ih =>
    intro d1 d2
    have hstep := mergeStep_congr_aux cfg cfg2 h fuel ih
    rw [mergeTwoF_succ, mergeTwoF_succ]
    rcases d1 with _ | _ | _ | _ | _ | l1 <;> try rfl
    rcases d2 with _ | _ | _ | _ | _ | l2 <;> try rfl
    show l2.foldlM (mergeStep cfg fuel) l1 = l2.foldlM (mergeStep cfg2 fuel) l1
    induction l2 generalizing l1 with
    | nil => rfl
    | cons kv rest ihl =>
      simp only [List.foldlM_cons]
      rw [hstep]
      rcases hres : mergeStep cfg2 fuel l1 kv with e | acc
      · rfl
      · show rest.foldlM (mergeStep cfg fuel) acc = rest.foldlM (mergeStep cfg2 fuel) acc
        exact ihl acc

/-! ## Claim C8 (`DictMerge.merge` algebra) -/

/-- C8, counterexample to "merge never fails for any input records":
with no registered strategies, two records sharing the label `"x"` whose
entries share the key `"value"` drive the recurse strategy into
`dict(3)`, and Python raises `TypeError`. -/
theorem claim_C8_counterexample :
    DictMerge_merge [] [.dict [("x", .dict [("value", .int 3)])],
      .dict [("x", .dict [("value", .int 4)])]] = .error .typeError := rfl

/-- C8 (amended): merging a one-record list returns that record unchanged
under every strategy mapping, and a field name with no registered
strategy defaults to the recurse strategy (`"dict_merge"`): both its
looked-up strategy name is `"dict_merge"` and the behaviour of
`_merge_two` is identical to having registered `"dict_merge"` for that
name explicitly.  (Totality, however, fails: see the counterexample.) -/
theorem claim_C8_theorem :
    (∀ (cfg : Dict String) (r : Dict PyVal), DictMerge_merge cfg [.dict r] = .ok r) ∧
    (∀ (cfg : Dict String) (k : String), dictGet? cfg k = Option.none →
      strategyFor cfg k = "dict_merge" ∧
      ∀ fuel d1 d2, mergeTwoF cfg fuel d1 d2 =
        mergeTwoF (dictSet cfg k "dict_merge") fuel d1 d2) := by
  constructor
  · intro cfg r
    rfl
  · intro cfg k hk
    constructor
    · unfold strategyFor
      rw [hk]
      rfl
    · intro fuel d1 d2
      apply mergeTwoF_congr
      intro k'
      unfold strategyFor
      rw [dictGet?_dictSet]
      by_cases h : k' = k
      · subst h
        rw [hk]
        simp
      · simp [h]

/-- C8, witness: the amended theorem applied at concrete inputs. -/
theorem claim_C8_witness :
    DictMerge_merge [("value", "append")] [.dict [("a", .int 1)]] = .ok [("a", .int 1)] ∧
    strategyFor [("value", "append")] "temperature" = "dict_merge" :=
  ⟨claim_C8_theorem.1 [("value", "append")] [("a", .int 1)],
   (claim_C8_theorem.2 [("value", "append")] "temperature" rfl).1⟩

/-! ## Sweep objects (`pysweep/sweep_object.py`)

A sweep object is an iterable; `__iter__` wires the bare
`_setter_factory()` stream through `_add_measurement_hooks`.  Streams are
modelled as the finite lists of records they yield.  An after-each hook is
modelled as the sequence of records it returns (its argument is the
number of previous invocations, the hooks being stateful through the
shared station/namespace); hooks fire once per step, so at step `i` each
after-each hook is on its `i`-th invocation. -/

/-- A measurement record: a Python dict, label → JSON value. -/
abbrev SRecord := Dict PyVal

/-- The `ParameterEntry` written by `ParameterSweep.log_format`:
`{"unit": unit, "value": value, "independent_parameter": True}`. -/
def paramEntry (unitName : String) (value : Int) : PyVal :=
  .dict [("unit", .str unitName), ("value", .int value),
         ("independent_parameter", .bool true)]

/-- `ParameterSweep.log_format` for an instrument-less parameter:
a one-entry record at the parameter's label. -/
def logFormat (label unitName : String) (value : Int) : SRecord :=
  [(label, paramEntry unitName value)]

/-- `BaseSweepObject._execute_measure_function("after_each")` at step `i`:
`msg_all = {}` updated with each hook's output in registration order. -/
def execEach (hooks : List (Nat → SRecord)) (i : Nat) : SRecord :=
  hooks.foldl (fun acc h => dictUpdate acc (h i)) []

/-- `BaseSweepObject._execute_measure_function("after_end")` (each
after-end hook fires exactly once, at exhaustion). -/
def execEnd (hooks : List SRecord) : SRecord :=
  hooks.foldl (fun acc h => dictUpdate acc h) []

/-- `BaseSweepObject._add_measurement_hooks`, as a function from the
source stream to the pair (yielded records, `_after_end_msg` retained
after exhaustion).  Per step: the after-each message is merged into the
record (`main_msg.update(after_each_msg)`); a top-level object
furthermore merges `_get_end_measurement_message()` (during the loop the
object's own `_after_end_msg` is still empty — it is only filled at
exhaustion — so the in-loop pull yields whatever `endPull` supplies:
empty for primitives and for compounds of hook-less children).  At
exhaustion `_after_end_msg` receives the after-end outputs; a top-level
object then pulls it (leaving it empty) and yields it if non-empty, a
nested object retains it for its parent. -/
def addMeasurementHooks (afterEach : List (Nat → SRecord)) (afterEnd : List SRecord)
    (isTop : Bool) (endPull : Nat → SRecord) (src : List SRecord) :
    List SRecord × SRecord :=
  let loop := src.enum.map (fun p =>
    let main := dictUpdate p.2 (execEach afterEach p.1)
    if isTop then dictUpdate main (endPull p.1) else main)
  let endMsg := execEnd afterEnd
  if isTop then
    (loop ++ (if endMsg.isEmpty then [] else [endMsg]), [])
  else
    (loop, endMsg)

/-- A sweep primitive: a settable parameter (label, unit) with a static
point list, plus its registered hooks. -/
structure Primitive where
  label : String
  unitName : String
  points : List Int
  afterEach : List (Nat → SRecord)
  afterEnd : List SRecord

/-- `ParameterSweep._setter_factory`: set each point and yield its
`log_format` record. -/
def primSource (p : Primitive) : List SRecord :=
  p.points.map (logFormat p.label p.unitName)

/-- Iterating a primitive sweep object. -/
def runPrimitive (p : Primitive) (isTop : Bool) : List SRecord × SRecord :=
  addMeasurementHooks p.afterEach p.afterEnd isTop (fun _ => []) (primSource p)

/-- `CompoundSweep._get_end_measurement_message`: the compound's own
pending message, updated with every child's retained message in child
order (both are cleared by the pull). -/
def compoundEndMessage (own : SRecord) (children : List SRecord) : SRecord :=
  children.foldl dictUpdate own

/-- A hook-less primitive (no after-each/after-end hooks registered). -/
def noHookPrim (label unitName : String) (points : List Int) : Primitive :=
  ⟨label, unitName, points, [], []⟩

/-- `execEach` of an empty hook list is the empty message. -/
theorem execEach_nil (i : Nat) : execEach [] i = [] := rfl

/-- `execEnd` of an empty hook list is the empty message. -/
theorem execEnd_nil : execEnd [] = [] := rfl

/-- The hook pipeline is transparent when no hooks are registered and the
in-loop end-message pulls are empty. -/
theorem addMeasurementHooks_no_hooks (isTop : Bool) (src : List SRecord) :
    addMeasurementHooks [] [] isTop (fun _ => []) src = (src, []) := by
  have hmap : ∀ (f : Nat × SRecord → SRecord), (∀ p, f p = p.2) → src.enum.map f = src := by
    intro f hf
    rw [List.map_congr_left (fun p _ => hf p)]
    exact List.enumFrom_map_snd 0 src
  cases isTop with
  | false =>
    show (src.enum.map _, execEnd []) = (src, [])
    rw [hmap]
    · rfl
    · intro p
      show dictUpdate p.2 (execEach [] p.1) = p.2
      rfl
  | true =>
    show (src.enum.map _ ++ _, []) = (src, [])
    rw [hmap]
    · show (src ++ [], []) = (src, [])
      rw [List.append_nil]
    · intro p
      show dictUpdate (dictUpdate p.2 (execEach [] p.1)) [] = p.2
      rfl

/-- `NestedSweep._two_product` at stream level: for each record of the
outer (second) sweep object, iterate the inner (first) afresh and yield
`result1.update(result2)`. -/
def twoProduct (inner outer : List SRecord) : List SRecord :=
  (outer.map (fun r2 => inner.map (fun r1 => dictUpdate r1 r2))).flatten

/-- Iterating `NestedSweep([A, B])` built from two hook-less primitives:
the children are marked non-top-level; `_setter_factory` folds
`_two_product` over the children (for two children: `two_product(A, B)`),
wraps the generator in a hook-less top-level `IteratorSweep`, and the
`NestedSweep` itself (hook-less, top-level) pipes that stream through its
own `_add_measurement_hooks`. -/
def nestedSweepRun (la ua : String) (a : List Int) (lb ub : String) (b : List Int) :
    List SRecord :=
  (addMeasurementHooks [] [] true (fun _ => [])
    ((addMeasurementHooks [] [] true (fun _ => [])
      (twoProduct (runPrimitive (noHookPrim la ua a) false).1
                  (runPrimitive (noHookPrim lb ub b) false).1)).1)).1

/-- `ZipSweep._combine_dictionaries`. -/
def combineDictionaries (ds : List SRecord) : SRecord :=
  ds.foldl dictUpdate []

/-- Iterating `ZipSweep([A, B])` built from two hook-less primitives:
`zip(*children)` pairs the children's streams positionally (stopping at
the shorter) and each pair is combined with `_combine_dictionaries`. -/
def zipSweepRun (la ua : String) (a : List Int) (lb ub : String) (b : List Int) :
    List SRecord :=
  (addMeasurementHooks [] [] true (fun _ => [])
    (((runPrimitive (noHookPrim la ua a) false).1.zip
      (runPrimitive (noHookPrim lb ub b) false).1).map
        (fun rr => combineDictionaries [rr.1, rr.2]))).1

/-! ## Claim C1 (Cartesian product sweep) -/

/-- The record yielded by `NestedSweep([A, B])` for inner point `x` of
parameter `(la, ua)` and outer point `y` of parameter `(lb, ub)`:
`result1.update(result2)`. -/
def nestedPairRec (la ua : String) (x : Int) (lb ub : String) (y : Int) : SRecord :=
  dictUpdate (logFormat la ua x) (logFormat lb ub y)

theorem nestedPairRec_eq {la lb : String} (ua ub : String) (x y : Int)
    (hlab : la ≠ lb) :
    nestedPairRec la ua x lb ub y = [(la, paramEntry ua x), (lb, paramEntry ub y)] := by
  unfold nestedPairRec logFormat dictUpdate dictSet
  simp [hlab]

theorem nestedPairRec_inj {la lb : String} {ua ub : String} {x x' y y' : Int}
    (hlab : la ≠ lb)
    (h : nestedPairRec la ua x lb ub y = nestedPairRec la ua x' lb ub y') :
    x = x' ∧ y = y' := by
  rw [nestedPairRec_eq ua ub x y hlab, nestedPairRec_eq ua ub x' y' hlab] at h
  simp [paramEntry] at h
  exact ⟨h.1, h.2⟩

/-- Iterating a hook-less primitive yields exactly its point records and
retains no after-end message. -/
theorem runPrimitive_noHook (label unitName : String) (points : List Int) (isTop : Bool) :
    runPrimitive (noHookPrim label unitName points) isTop =
      (points.map (logFormat label unitName), []) :=
  addMeasurementHooks_no_hooks isTop _

/-- Sum of a constant map. -/
theorem sum_map_const {α : Type} (l : List α) (c : Nat) :
    (l.map (fun _ => c)).sum = c * l.length := by
  induction l with
  | nil => simp
  | cons z rest ih =>
    simp [ih, Nat.mul_succ]
    ring

/-- Counting the image of an injective map. -/
theorem count_map_injective {α β : Type} [BEq α] [LawfulBEq α] [BEq β] [LawfulBEq β]
    (l : List α) (f : α → β) (hinj : ∀ u v, f u = f v → u = v) (x : α) :
    (l.map f).count (f x) = l.count x := by
  induction l with
  | nil => rfl
  | cons z rest ih =>
    rw [List.map_cons, List.count_cons, List.count_cons, ih]
    by_cases h : z = x
    · subst h
      simp
    · have hf : ¬ (f z == f x) = true := by
        intro hh
        exact h (hinj _ _ (by simpa using hh))
      have hz : ¬ (z == x) = true := by simpa using h
      simp [hf, hz]

/-- In a duplicate-free list every member is counted exactly once. -/
theorem count_eq_one_of_mem_nodup {α : Type} [BEq α] [LawfulBEq α] {l : List α} {x : α}
    (hnd : l.Nodup) (hx : x ∈ l) : l.count x = 1 := by
  induction l with
  | nil => cases hx
  | cons z rest ih =>
    rw [List.count_cons]
    rcases List.mem_cons.mp hx with h | h
    · have hzr : z ∉ rest := (List.nodup_cons.mp hnd).1
      have hxr : x ∉ rest := by
        rw [h]
        exact hzr
      rw [List.count_eq_zero.mpr hxr]
      simp [h]
    · rw [ih (List.nodup_cons.mp hnd).2 h]
      have hzx : ¬ (z == x) = true := by
        have hne : z ≠ x := by
          intro hzz
          subst hzz
          exact (List.nodup_cons.mp hnd).1 h
        simpa using hne
      simp [hzx]

/-- Indicator sum computes `count`. -/
theorem sum_map_indicator (y : Int) (l : List Int) :
    (l.map (fun y' => if y' = y then 1 else 0)).sum = l.count y := by
  induction l with
  | nil => rfl
  | cons z rest ih =>
    simp only [List.map_cons, List.sum_cons, List.count_cons, ih]
    by_cases h : z = y <;> simp [h, Nat.add_comm]

/-- C1: iterating `Product([A, B])` over static point lists `a` (inner,
first-listed, label `la`) and `b` (outer, last-listed, label `lb`) yields
exactly `len(a) * len(b)` records; the stream is the concatenation, over
the outer points `y` of `b`, of a full inner pass over `a` (first-listed
child innermost/fastest-varying, last-listed outermost/slowest-varying);
every combination `(x, y)` is covered exactly once; and nothing else is
yielded. -/
theorem claim_C1_theorem (la ua lb ub : String) (a b : List Int)
    (hlab : la ≠ lb) (ha : a.Nodup) (hb : b.Nodup) :
    (nestedSweepRun la ua a lb ub b).length = a.length * b.length ∧
    nestedSweepRun la ua a lb ub b =
      (b.map (fun y => a.map (fun x => nestedPairRec la ua x lb ub y))).flatten ∧
    (∀ x ∈ a, ∀ y ∈ b,
      (nestedSweepRun la ua a lb ub b).count (nestedPairRec la ua x lb ub y) = 1) ∧
    (∀ r ∈ nestedSweepRun la ua a lb ub b, ∃ x ∈ a, ∃ y ∈ b,
      r = nestedPairRec la ua x lb ub y) := by
  have hrun : nestedSweepRun la ua a lb ub b =
      (b.map (fun y => a.map (fun x => nestedPairRec la ua x lb ub y))).flatten := by
    unfold nestedSweepRun
    rw [runPrimitive_noHook, runPrimitive_noHook]
    simp only [addMeasurementHooks_no_hooks]
    unfold twoProduct
    simp only [List.map_map]
    rfl
  refine ⟨?_, hrun, ?_, ?_⟩
  · rw [hrun, List.length_flatten, List.map_map]
    have hc : (List.map (List.length ∘ fun y => a.map (fun x => nestedPairRec la ua x lb ub y)) b)
        = List.map (fun _ => a.length) b := by
      apply List.map_congr_left
      intro y _
      simp
    rw [hc, sum_map_const]
  · intro x hx y hy
    rw [hrun, List.count_flatten, List.map_map]
    have hcnt : (List.map ((List.count (nestedPairRec la ua x lb ub y)) ∘
        fun y' => a.map (fun x' => nestedPairRec la ua x' lb ub y')) b) =
        b.map (fun y' => if y' = y then 1 else 0) := by
      apply List.map_congr_left
      intro y' _
      simp only [Function.comp_apply]
      by_cases h : y' = y
      · subst h
        rw [if_pos rfl]
        have hinj : Function.Injective (fun x' => nestedPairRec la ua x' lb ub y') :=
          fun u v huv => (nestedPairRec_inj hlab huv).1
        have hcm := count_map_injective a
          (fun x' => nestedPairRec la ua x' lb ub y') (fun u v huv => hinj huv) x
        rw [hcm]
        exact count_eq_one_of_mem_nodup ha hx
      · rw [if_neg h, List.count_eq_zero]
        intro hmem
        obtain ⟨x'', _, hxx⟩ := List.mem_map.mp hmem
        exact h (nestedPairRec_inj hlab hxx).2
    rw [hcnt, sum_map_indicator]
    exact count_eq_one_of_mem_nodup hb hy
  · intro r hr
    rw [hrun] at hr
    obtain ⟨l, hl, hrl⟩ := List.mem_flatten.mp hr
    obtain ⟨y, hy, hly⟩ := List.mem_map.mp hl
    subst hly
    obtain ⟨x, hx, hxr⟩ := List.mem_map.mp hrl
    exact ⟨x, hx, y, hy, hxr.symm⟩

/-- C1, witness: the theorem applied to `A = ("x", [1, 2])` (inner) and
`B = ("y", [10])` (outer). -/
theorem claim_C1_witness :
    (nestedSweepRun "x" "u" [1, 2] "y" "v" [10]).length = 2 ∧
    (nestedSweepRun "x" "u" [1, 2] "y" "v" [10]).count
      (nestedPairRec "x" "u" 1 "y" "v" 10) = 1 := by
  have h := claim_C1_theorem "x" "u" "y" "v" [1, 2] [10]
    (by decide) (by decide) (by decide)
  exact ⟨h.1, h.2.2.1 1 (by decide) 10 (by decide)⟩

/-! ## Claim C6 (pairwise product merge direction) -/

/-- C6, counterexample: the claim says the inner child's entry wins on a
shared key, but `_two_product` executes `result1.update(result2)`, so the
outer record's entry overwrites the inner one: with inner record
`{"k": 1}` and outer record `{"k": 2}` the yielded record holds `2`. -/
theorem claim_C6_counterexample :
    twoProduct [[("k", PyVal.int 1)]] [[("k", PyVal.int 2)]] = [[("k", PyVal.int 2)]] ∧
    PyVal.int 2 ≠ PyVal.int 1 := by
  refine ⟨rfl, ?_⟩
  decide

/-- C6 (amended): every record yielded by the pairwise product step is
`result1.update(result2)` — the outer child's record merged over the
inner child's — so on every key present in both, the OUTER child's entry
wins (and conversely every such merge is yielded). -/
theorem claim_C6_theorem (ya yb : List SRecord) :
    (∀ r ∈ twoProduct ya yb, ∃ ri ∈ ya, ∃ ro ∈ yb,
      r = dictUpdate ri ro ∧
      ∀ k, dictGet? r k =
        match dictGetLast? ro k with
        | some v => some v
        | Option.none => dictGet? ri k) ∧
    (∀ ri ∈ ya, ∀ ro ∈ yb, dictUpdate ri ro ∈ twoProduct ya yb) := by
  constructor
  · intro r hr
    obtain ⟨l, hl, hrl⟩ := List.mem_flatten.mp hr
    obtain ⟨ro, hro, hlo⟩ := List.mem_map.mp hl
    subst hlo
    obtain ⟨ri, hri, hir⟩ := List.mem_map.mp hrl
    refine ⟨ri, hri, ro, hro, hir.symm, ?_⟩
    intro k
    rw [← hir, dictGet?_dictUpdate]
    rcases dictGetLast? ro k with _ | v <;> rfl
  · intro ri hri ro hro
    apply List.mem_flatten.mpr
    exact ⟨_, List.mem_map_of_mem _ hro, List.mem_map_of_mem _ hri⟩

/-- C6, witness: the amended theorem applied at concrete one-record
streams. -/
theorem claim_C6_witness :
    dictUpdate [("a", PyVal.int 1)] [("b", PyVal.int 2)] ∈
      twoProduct [[("a", PyVal.int 1)]] [[("b", PyVal.int 2)]] :=
  (claim_C6_theorem [[("a", PyVal.int 1)]] [[("b", PyVal.int 2)]]).2
    [("a", PyVal.int 1)] (by simp) [("b", PyVal.int 2)] (by simp)

/-! ## Claim C7 (zipped sweep) -/

theorem combine_logFormat {la lb : String} (ua ub : String) (x y : Int)
    (hlab : la ≠ lb) :
    combineDictionaries [logFormat la ua x, logFormat lb ub y]
      = [(la, paramEntry ua x), (lb, paramEntry ub y)] := by
  unfold combineDictionaries logFormat dictUpdate dictSet
  simp [hlab]

/-- C7: iterating `Zip([A, B])` over point lists `a` and `b` yields
exactly `min(len(a), len(b))` records; the stream is the positional
`zipWith` of the two parameter streams, and the `i`-th record is the
key-wise union of the `i`-th record of `A` and the `i`-th record of `B`
(no cross-product expansion). -/
theorem claim_C7_theorem (la ua lb ub : String) (a b : List Int) (hlab : la ≠ lb) :
    (zipSweepRun la ua a lb ub b).length = min a.length b.length ∧
    zipSweepRun la ua a lb ub b =
      List.zipWith (fun x y => [(la, paramEntry ua x), (lb, paramEntry ub y)]) a b ∧
    (∀ (i : Nat) (x y : Int), a[i]? = some x → b[i]? = some y →
      (zipSweepRun la ua a lb ub b)[i]? =
        some [(la, paramEntry ua x), (lb, paramEntry ub y)]) := by
  have hrun : zipSweepRun la ua a lb ub b =
      List.zipWith (fun x y => [(la, paramEntry ua x), (lb, paramEntry ub y)]) a b := by
    unfold zipSweepRun
    rw [runPrimitive_noHook, runPrimitive_noHook]
    simp only [addMeasurementHooks_no_hooks]
    show ((a.map (logFormat la ua)).zip (b.map (logFormat lb ub))).map
      (fun rr => combineDictionaries [rr.1, rr.2]) = _
    induction a generalizing b with
    | nil => simp
    | cons x xs ih =>
      cases b with
      | nil => simp
      | cons y ys =>
        simp only [List.map_cons, List.zip_cons_cons, List.zipWith_cons_cons]
        rw [combine_logFormat ua ub x y hlab]
        rw [ih]
  refine ⟨?_, hrun, ?_⟩
  · rw [hrun, List.length_zipWith]
  · intro i x y hx hy
    rw [hrun, List.getElem?_zipWith, hx, hy]

/-- C7, witness: the theorem applied at `a = [1, 2, 3]`, `b = [10, 20]`. -/
theorem claim_C7_witness :
    (zipSweepRun "x" "u" [1, 2, 3] "y" "v" [10, 20]).length = 2 ∧
    (zipSweepRun "x" "u" [1, 2, 3] "y" "v" [10, 20])[0]? =
      some [("x", paramEntry "u" 1), ("y", paramEntry "v" 10)] := by
  have h := claim_C7_theorem "x" "u" "y" "v" [1, 2, 3] [10, 20] (by decide)
  exact ⟨h.1, h.2.2 0 1 10 rfl rfl⟩

/-! ## Event traces of a primitive sweep

For the hook-ordering and after-end claims we refine the model with the
chronological trace of side effects of iterating a primitive:
`parameter.set` calls (inside `ParameterSweep._setter_factory`),
after-each hook invocations, the single after-start firing, yields, and
after-end hook invocations. -/

/-- One observable event of an iteration. -/
inductive Event where
  | setp : Int → Event
  | hookEach : Nat → Event
  | hookStart : Event
  | hookEnd : Event
  | yieldRec : SRecord → Event
deriving DecidableEq, Repr

/-- Is the event an after-each hook invocation? -/
def isHookEach : Event → Bool
  | .hookEach _ => true
  | _ => false

/-- Is the event an after-end hook invocation? -/
def isHookEnd : Event → Bool
  | .hookEnd => true
  | _ => false

/-- The record yielded at step `i` (set value `v`) of a primitive:
`main_msg` (the `log_format` record) updated with the after-each message,
and — for a top-level object — with `_get_end_measurement_message()`
(still empty during the loop). -/
def stepRecord (p : Primitive) (isTop : Bool) (i : Nat) (v : Int) : SRecord :=
  let main := dictUpdate (logFormat p.label p.unitName v) (execEach p.afterEach i)
  if isTop then dictUpdate main [] else main

/-- The event trace of iterating a primitive: per step `set(value)`, then
the after-each hooks in registration order, then (first step only)
after-start, then the yield; at exhaustion the after-end hooks, and for a
top-level object the trailing yield of the after-end message when it is
non-empty. -/
def primitiveTrace (p : Primitive) (isTop : Bool) : List Event :=
  (p.points.enum.map (fun iv =>
    [Event.setp iv.2] ++ p.afterEach.map (fun _ => Event.hookEach iv.1) ++
      (if iv.1 = 0 then [Event.hookStart] else []) ++
      [Event.yieldRec (stepRecord p isTop iv.1 iv.2)])).flatten ++
  p.afterEnd.map (fun _ => Event.hookEnd) ++
    (if isTop ∧ ¬ (execEnd p.afterEnd).isEmpty
     then [Event.yieldRec (execEnd p.afterEnd)] else [])

theorem dictGetLast?_dictSet {α : Type} (d : Dict α) (k : String) (v : α) (k' : String) :
    dictGetLast? (dictSet d k v) k' = if k' = k then some v else dictGetLast? d k' := by
  show dictGet? (dictSet d k v).reverse k' = if k' = k then some v else dictGet? d.reverse k'
  by_cases hk : d.any (fun kv => kv.1 = k)
  · have hanyrev : d.reverse.any (fun kv => kv.1 = k) := by
      rw [List.any_eq_true] at hk ⊢
      obtain ⟨x, hx, hp⟩ := hk
      exact ⟨x, List.mem_reverse.mpr hx, hp⟩
    have h1 : (dictSet d k v).reverse = dictSet d.reverse k v := by
      unfold dictSet
      rw [if_pos hk, if_pos hanyrev, List.map_reverse]
    rw [h1, dictGet?_dictSet]
  · have h1 : (dictSet d k v).reverse = (k, v) :: d.reverse := by
      unfold dictSet
      rw [if_neg hk, List.reverse_append]
      rfl
    rw [h1]
    unfold dictGet?
    rw [List.find?_cons]
    by_cases hkk : k' = k
    · subst hkk
      simp
    · have h2 : ¬ k = k' := fun h => hkk h.symm
      simp [h2, hkk]

/-- `dictGetLast?` after `update`: the last occurrence in `d2` wins,
otherwise the last occurrence in `d1`. -/
theorem dictGetLast?_dictUpdate {α : Type} (d1 d2 : Dict α) (k : String) :
    dictGetLast? (dictUpdate d1 d2) k =
      match dictGetLast? d2 k with
      | some v => some v
      | Option.none => dictGetLast? d1 k := by
  induction d2 generalizing d1 with
  | nil => rfl
  | cons kv rest ih =>
    show dictGetLast? (dictUpdate (dictSet d1 kv.1 kv.2) rest) k = _
    rw [ih, dictGetLast?_cons]
    rcases h : dictGetLast? rest k with _ | v
    · rw [dictGetLast?_dictSet]
      by_cases hkk : k = kv.1
      · simp [hkk]
      · have h4 : ¬ kv.1 = k := fun hh => hkk hh.symm
        simp [hkk, h4]
    · rfl

/-! ## Claim C5 (after-each hook ordering and overwrite direction) -/

/-- C5, counterexample to "H's entry never overwrites P's own entry": an
after-each hook returning an entry at the settable's own label `"p"`
makes the yielded records carry the hook's value, not the settable's
(`main_msg.update(after_each_msg)` lets the hook side win). -/
theorem claim_C5_counterexample :
    (runPrimitive ⟨"p", "u", [1, 2], [fun _ => [("p", PyVal.int 99)]], []⟩ true).1 =
      [[("p", PyVal.int 99)], [("p", PyVal.int 99)]] ∧
    dictGet? [("p", PyVal.int 99)] "p" ≠ dictGet? (logFormat "p" "u" 1) "p" := by
  refine ⟨rfl, ?_⟩
  decide

/-- C5 (amended): sweeping a primitive over two points with one after-each
hook `H` invokes `H` exactly twice, each invocation strictly after the
corresponding `set` call and strictly before the corresponding yield; and
on a key conflict the after-each message overwrites the settable's own
entry (later hooks win over earlier ones and over the settable). -/
theorem claim_C5_theorem (lab ul : String) (v1 v2 : Int) (H : Nat → SRecord) :
    ((primitiveTrace ⟨lab, ul, [v1, v2], [H], []⟩ true).countP isHookEach) = 2 ∧
    (∃ s1 h1 y1 s2 h2 y2 : Nat, s1 < h1 ∧ h1 < y1 ∧ y1 < s2 ∧ s2 < h2 ∧ h2 < y2 ∧
      (primitiveTrace ⟨lab, ul, [v1, v2], [H], []⟩ true)[s1]? = some (Event.setp v1) ∧
      (primitiveTrace ⟨lab, ul, [v1, v2], [H], []⟩ true)[h1]? = some (Event.hookEach 0) ∧
      (primitiveTrace ⟨lab, ul, [v1, v2], [H], []⟩ true)[y1]? =
        some (Event.yieldRec (stepRecord ⟨lab, ul, [v1, v2], [H], []⟩ true 0 v1)) ∧
      (primitiveTrace ⟨lab, ul, [v1, v2], [H], []⟩ true)[s2]? = some (Event.setp v2) ∧
      (primitiveTrace ⟨lab, ul, [v1, v2], [H], []⟩ true)[h2]? = some (Event.hookEach 1) ∧
      (primitiveTrace ⟨lab, ul, [v1, v2], [H], []⟩ true)[y2]? =
        some (Event.yieldRec (stepRecord ⟨lab, ul, [v1, v2], [H], []⟩ true 1 v2))) ∧
    (∀ (i : Nat) (v : Int) (k : String),
      dictGet? (stepRecord ⟨lab, ul, [v1, v2], [H], []⟩ true i v) k =
        match dictGetLast? (H i) k with
        | some w => some w
        | Option.none => dictGet? (logFormat lab ul v) k) := by
  refine ⟨rfl, ⟨0, 1, 3, 4, 5, 6, ?_, ?_, ?_, ?_, ?_, rfl, rfl, rfl, rfl, rfl, rfl⟩, ?_⟩
  · decide
  · decide
  · decide
  · decide
  · decide
  · intro i v k
    show dictGet? (dictUpdate (dictUpdate (logFormat lab ul v) (execEach [H] i)) []) k = _
    rw [dictUpdate_nil]
    have hexec : execEach [H] i = dictUpdate [] (H i) := rfl
    rw [hexec, dictGet?_dictUpdate, dictGetLast?_dictUpdate]
    rcases dictGetLast? (H i) k with _ | w <;> rfl

/-! ## Claim C4 (after-end retention and bubbling) -/

/-- Key membership of a left fold of updates: the union of the keys. -/
theorem isSome_dictGet?_foldl_dictUpdate {α : Type} (l : List (Dict α)) (init : Dict α)
    (k : String) :
    (dictGet? (l.foldl dictUpdate init) k).isSome ↔
      (dictGet? init k).isSome ∨ ∃ m ∈ l, (dictGet? m k).isSome := by
  induction l generalizing init with
  | nil => simp
  | cons h rest ih =>
    rw [List.foldl_cons, ih, isSome_dictGet?_dictUpdate]
    constructor
    · rintro (hi | ⟨m, hm, hs⟩)
      · rcases hi with hi | hi
        · exact Or.inl hi
        · exact Or.inr ⟨h, List.mem_cons_self h rest, hi⟩
      · exact Or.inr ⟨m, List.mem_cons_of_mem h hm, hs⟩
    · rintro (hi | ⟨m, hm, hs⟩)
      · exact Or.inl (Or.inl hi)
      · rcases List.mem_cons.mp hm with hmh | hmr
        · subst hmh
          exact Or.inl (Or.inr hs)
        · exact Or.inr ⟨m, hmr, hs⟩

/-- Every event of the per-step part of a primitive trace is a set, an
after-each invocation, the after-start firing, or a yield. -/
theorem mem_primSteps_cases (p : Primitive) (isTop : Bool) (e : Event)
    (he : e ∈ (p.points.enum.map (fun iv =>
      [Event.setp iv.2] ++ p.afterEach.map (fun _ => Event.hookEach iv.1) ++
        (if iv.1 = 0 then [Event.hookStart] else []) ++
        [Event.yieldRec (stepRecord p isTop iv.1 iv.2)])).flatten) :
    (∃ v, e = Event.setp v) ∨ (∃ i, e = Event.hookEach i) ∨ e = Event.hookStart ∨
      ∃ r, e = Event.yieldRec r := by
  obtain ⟨l, hl, hel⟩ := List.mem_flatten.mp he
  obtain ⟨iv, _, hiv⟩ := List.mem_map.mp hl
  subst hiv
  rcases List.mem_append.mp hel with h | h
  · rcases List.mem_append.mp h with h | h
    · rcases List.mem_append.mp h with h | h
      · exact Or.inl ⟨iv.2, List.mem_singleton.mp h⟩
      · obtain ⟨_, _, hh⟩ := List.mem_map.mp h
        exact Or.inr (Or.inl ⟨iv.1, hh.symm⟩)
    · by_cases h0 : iv.1 = 0
      · rw [if_pos h0] at h
        exact Or.inr (Or.inr (Or.inl (List.mem_singleton.mp h)))
      · rw [if_neg h0] at h
        cases h
  · exact Or.inr (Or.inr (Or.inr ⟨_, List.mem_singleton.mp h⟩))

/-- C4: when a sweep object's point source is exhausted its after-end
hooks fire (as many after-end invocations as registered hooks, all of
them after every `set` call); a top-level object retains nothing and
yields one extra trailing record — exactly the combined after-end message,
whose keys all come from after-end outputs — unless that message is
empty, in which case nothing extra is yielded; a nested object yields no
extra record and retains the after-end message; and the compound
accessor `_get_end_measurement_message` returns the union of the
compound's own pending message and all children's retained messages. -/
theorem claim_C4_theorem (p : Primitive) (isTop : Bool) :
    ((primitiveTrace p isTop).countP isHookEnd = p.afterEnd.length) ∧
    (∀ (n m : Nat) (v : Int), (primitiveTrace p isTop)[n]? = some (Event.setp v) →
      (primitiveTrace p isTop)[m]? = some Event.hookEnd → n < m) ∧
    (isTop = true →
      (runPrimitive p true).2 = [] ∧
      ((execEnd p.afterEnd).isEmpty = true →
        (runPrimitive p true).1.length = p.points.length) ∧
      ((execEnd p.afterEnd).isEmpty = false →
        (runPrimitive p true).1.length = p.points.length + 1 ∧
        (runPrimitive p true).1.getLast? = some (execEnd p.afterEnd) ∧
        ∀ k, (dictGet? (execEnd p.afterEnd) k).isSome →
          ∃ m ∈ p.afterEnd, (dictGet? m k).isSome)) ∧
    (isTop = false →
      (runPrimitive p false).1.length = p.points.length ∧
      (runPrimitive p false).2 = execEnd p.afterEnd) ∧
    (∀ (own : SRecord) (children : List SRecord) (k : String),
      (dictGet? (compoundEndMessage own children) k).isSome ↔
        (dictGet? own k).isSome ∨ ∃ c ∈ children, (dictGet? c k).isSome) := by
  have hloopLen : ∀ (t : Bool),
      (List.map (fun (x : Nat × SRecord) =>
        if t = true then dictUpdate (dictUpdate x.2 (execEach p.afterEach x.1)) ((fun _ => []) x.1)
        else dictUpdate x.2 (execEach p.afterEach x.1)) (primSource p).enum).length
        = p.points.length := by
    intro t
    rw [List.length_map, List.enum_length]
    unfold primSource
    exact List.length_map _ _
  refine ⟨?_, ?_, ?_, ?_, ?_⟩
  · unfold primitiveTrace
    rw [List.countP_append, List.countP_append]
    have h1 : (List.countP isHookEnd ((p.points.enum.map (fun iv =>
        [Event.setp iv.2] ++ p.afterEach.map (fun _ => Event.hookEach iv.1) ++
          (if iv.1 = 0 then [Event.hookStart] else []) ++
          [Event.yieldRec (stepRecord p isTop iv.1 iv.2)])).flatten)) = 0 := by
      rw [List.countP_eq_zero]
      intro e he
      rcases mem_primSteps_cases p isTop e he with ⟨v, hv⟩ | ⟨i, hi⟩ | hs | ⟨r, hr⟩ <;>
        subst_vars <;> simp [isHookEnd]
    have h2 : List.countP isHookEnd (p.afterEnd.map (fun _ => Event.hookEnd))
        = p.afterEnd.length := by
      rw [List.countP_map]
      have : (isHookEnd ∘ fun (_ : SRecord) => Event.hookEnd) = fun _ => true := rfl
      rw [this, List.countP_true]
    have h3 : List.countP isHookEnd
        (if isTop ∧ ¬ (execEnd p.afterEnd).isEmpty
         then [Event.yieldRec (execEnd p.afterEnd)] else []) = 0 := by
      split
      · rfl
      · rfl
    rw [h1, h2, h3]
    omega
  · intro n m v hn hm
    unfold primitiveTrace at hn hm
    set steps := (p.points.enum.map (fun iv =>
      [Event.setp iv.2] ++ p.afterEach.map (fun _ => Event.hookEach iv.1) ++
        (if iv.1 = 0 then [Event.hookStart] else []) ++
        [Event.yieldRec (stepRecord p isTop iv.1 iv.2)])).flatten with hsteps
    have hnL : n < steps.length := by
      by_contra hge
      push_neg at hge
      rw [List.append_assoc, List.getElem?_append_right hge] at hn
      have hmem := List.getElem?_mem hn
      rcases List.mem_append.mp hmem with h | h
      · obtain ⟨_, _, hh⟩ := List.mem_map.mp h
        cases hh
      · revert h
        split
        · intro h
          cases List.mem_singleton.mp h
        · intro h
          cases h
    have hmL : steps.length ≤ m := by
      by_contra hlt
      push_neg at hlt
      rw [List.append_assoc, List.getElem?_append, if_pos hlt] at hm
      have hmem := List.getElem?_mem hm
      rcases mem_primSteps_cases p isTop _ hmem with ⟨w, hw⟩ | ⟨i, hi⟩ | hs | ⟨r, hr⟩
      · cases hw
      · cases hi
      · cases hs
      · cases hr
    omega
  · intro ht
    refine ⟨rfl, ?_, ?_⟩
    · intro hemp
      show (_ ++ (if (execEnd p.afterEnd).isEmpty then [] else [execEnd p.afterEnd])).length = _
      rw [hemp]
      show (_ ++ []).length = _
      rw [List.append_nil]
      exact hloopLen true
    · intro hemp
      refine ⟨?_, ?_, ?_⟩
      · show (_ ++ (if (execEnd p.afterEnd).isEmpty then [] else [execEnd p.afterEnd])).length = _
        rw [hemp]
        show (_ ++ [execEnd p.afterEnd]).length = _
        rw [List.length_append]
        rw [hloopLen true]
        rfl
      · show (_ ++ (if (execEnd p.afterEnd).isEmpty then [] else [execEnd p.afterEnd])).getLast? = _
        rw [hemp]
        exact List.getLast?_concat _
      · intro k hk
        unfold execEnd at hk
        rcases (isSome_dictGet?_foldl_dictUpdate p.afterEnd [] k).mp hk with h | h
        · cases h
        · exact h
  · intro ht
    exact ⟨hloopLen false, rfl⟩
  · intro own children k
    exact isSome_dictGet?_foldl_dictUpdate children own k

/-- C4, witness: a primitive with one after-end hook `{"m": 7}` over one
point, top-level and nested. -/
theorem claim_C4_witness :
    (runPrimitive ⟨"p", "u", [1], [], [[("m", PyVal.int 7)]]⟩ true).1.getLast?
      = some [("m", PyVal.int 7)] ∧
    (runPrimitive ⟨"p", "u", [1], [], [[("m", PyVal.int 7)]]⟩ false).2
      = [("m", PyVal.int 7)] ∧
    ((primitiveTrace ⟨"p", "u", [1], [], [[("m", PyVal.int 7)]]⟩ true).countP isHookEnd = 1) := by
  have h := claim_C4_theorem ⟨"p", "u", [1], [], [[("m", PyVal.int 7)]]⟩ true
  have h2 := claim_C4_theorem ⟨"p", "u", [1], [], [[("m", PyVal.int 7)]]⟩ false
  refine ⟨?_, ?_, h.1⟩
  · exact ((h.2.2.1 rfl).2.2 rfl).2.1
  · exact (h2.2.2.2.1 rfl).2

/-! ## Spyview storage (`pysweep/data_storage/spyview.py`)

The `SpyviewWriter` buffer maps labels to entries
`{"unit": ..., "value": [...], "independent_parameter": ...?}`; the code
only ever tests *presence* of the `independent_parameter` key, so an
entry is modelled with a `Bool` recording that presence.  Values are
modelled as integers; the written text is modelled as its list of
characters. -/

/-- A buffered spyview entry. -/
structure SpyEntry where
  unitName : String
  values : List Int
  indep : Bool
deriving DecidableEq, Repr

/-- The writer buffer: an insertion-ordered dict, label → entry. -/
abbrev SpyBuf := Dict SpyEntry

/-- `np.roll(ary, -1)`: rotate left by one position. -/
def npRollNeg1 (l : List Int) : List Int := l.drop 1 ++ l.take 1

/-- `SpyviewWriter.collapse_axis`:
`np.sum(ary != np.roll(ary, -1))`, the number of positions at which the
list differs from its left rotation — cyclically adjacent unequal pairs,
wrap-around pair (last, first) included. -/
def collapse_axis (l : List Int) : Nat :=
  ((l.zip (npRollNeg1 l)).filter (fun q => q.1 ≠ q.2)).length

/-- The quantity the specification describes: the number of non-cyclic
adjacent-row positions at which the value changes (no wrap-around). -/
def specAdjacentChanges (l : List Int) : Nat :=
  ((l.zip l.tail).filter (fun q => q.1 ≠ q.2)).length

/-- Failures of the spyview writer model.  `noIndependent` is the
`RuntimeError` of `_find_independent_parameters`; `keyError` /
`indexError` / `valueError` model the Python exceptions of the same
names. -/
inductive SpyErr where
  | noIndependent : SpyErr
  | keyError : SpyErr
  | indexError : SpyErr
  | valueError : SpyErr
deriving DecidableEq, Repr

/-- The comparison used by
`sorted(independent_collapsed, key=lambda el: el[1], reverse=True)`:
descending by collapse count.  Python's `sorted` is stable; so is
`List.insertionSort` with this (non-strict) relation, placing an element
before every later-listed element of equal key. -/
def collapseGE (a b : String × Nat) : Prop := b.2 ≤ a.2

instance : DecidableRel collapseGE := fun a b => Nat.decLe b.2 a.2

instance : IsTotal (String × Nat) collapseGE :=
  ⟨fun a b => (Nat.le_total b.2 a.2).imp id id⟩

instance : IsTrans (String × Nat) collapseGE :=
  ⟨fun _ _ _ h1 h2 => Nat.le_trans h2 h1⟩

/-- The `independent_collapsed` list of `_find_independent_parameters`:
`(label, collapse count)` for every buffered label carrying the
`independent_parameter` key, in buffer (first-seen) order. -/
def independentCollapsed (buf : SpyBuf) : List (String × Nat) :=
  (buf.filter (fun kv => kv.2.indep)).map (fun kv => (kv.1, collapse_axis kv.2.values))

/-- `SpyviewWriter._find_independent_parameters`: raise if no label is
flagged independent, else return the labels sorted descending by
collapse count (stable, ties in first-seen order). -/
def findIndependentParameters (buf : SpyBuf) : Except SpyErr (List String) :=
  if (independentCollapsed buf).isEmpty then
    .error .noIndependent
  else
    .ok ((List.insertionSort collapseGE (independentCollapsed buf)).map Prod.fst)

/-- `SpyviewWriter._get_buffer_value`: the `"empty"` column is
synthesized as zeros of the first independent parameter's length; other
columns are looked up in the buffer. -/
def getBufferValue (buf : SpyBuf) (indeps : List String) (k : String) :
    Except SpyErr (List Int) :=
  if k = "empty" then
    match indeps.head? with
    | some fi =>
      match dictGet? buf fi with
      | some e => .ok (List.replicate e.values.length 0)
      | Option.none => .error .keyError
    | Option.none => .error .indexError
  else
    match dictGet? buf k with
    | some e => .ok e.values
    | Option.none => .error .keyError

/-- `zip(*buffer_values)`: the rows of a list of columns, truncated to
the shortest column. -/
def zipColumns (cols : List (List Int)) : List (List Int) :=
  match cols with
  | [] => []
  | c :: cs =>
    (List.range ((cs.map List.length).foldr Nat.min c.length)).map
      (fun i => (c :: cs).map (fun col => col.getD i 0))

/-- The digits of `n`, most significant first, prepended to `acc`
(the recursion of CPython's integer `str`). -/
def natStrAux (n : Nat) (acc : List Char) : List Char :=
  if h : n < 10 then Char.ofNat (48 + n % 10) :: acc
  else natStrAux (n / 10) (Char.ofNat (48 + n % 10) :: acc)
termination_by n
decreasing_by exact Nat.div_lt_self (by omega) (by omega)

/-- `str(n)` for a natural number. -/
def natStr (n : Nat) : List Char := natStrAux n []

/-- `str(i)` for an integer. -/
def intStr (i : Int) : List Char :=
  match i with
  | .ofNat n => natStr n
  | .negSucc n => '-' :: natStr (n + 1)

/-- `"\t".join(strings)`. -/
def tabJoin (parts : List (List Char)) : List Char :=
  match parts with
  | [] => []
  | [s] => s
  | s :: rest => s ++ '\t' :: tabJoin rest

/-- One output row: `"\t".join(str(ii) for ii in row)`. -/
def renderRow (row : List Int) : List Char := tabJoin (row.map intStr)

/-- The escape prepended to a row: a blank separator line before a row
whose fastest-axis value equals the recorded start value, a plain
newline otherwise (`{True: "\n\n", False: "\n"}[i]`). -/
def escapeFor (startVal v : Int) : List Char :=
  if v = startVal then ['\n', '\n'] else ['\n']

/-- The mutable state of `SpyviewWriter` relevant to `_write_buffer`:
`_independent_parameters` (empty until first inferred) and
`_inner_sweep_start_value` (`None` until first flush). -/
structure WriterState where
  independentParameters : List String
  innerSweepStartValue : Option Int
deriving DecidableEq, Repr

/-- Padding of the inferred axis list: a 1-axis buffer gains the
synthetic `"empty"` axis, a 2-axis list gains `"none"`. -/
def padIndeps (ind : List String) : List String :=
  let ind1 := if ind.length = 1 then ind ++ ["empty"] else ind
  if ind1.length = 2 then ind1 ++ ["none"] else ind1

/-- The head of `_write_buffer`: infer (and pad) the independent axes on
the first call, reuse the stored order afterwards. -/
def computeIndeps (st : WriterState) (buf : SpyBuf) : Except SpyErr (List String) :=
  if st.independentParameters.isEmpty then
    match findIndependentParameters buf with
    | .ok ind => .ok (padIndeps ind)
    | .error e => .error e
  else .ok st.independentParameters

/-- The remainder of `SpyviewWriter._write_buffer`: order the columns as
[independent axes, then remaining buffer keys in first-seen order],
drop the `"none"` placeholder, fetch the column values, record the
fastest axis's first-ever value, flag block starts by equality with it,
prepend `"\n\n"` before block starts and `"\n"` otherwise (no escape at
all before the very first row), tab-join the rows, and concatenate. -/
def writeBufferBody (indeps : List String) (startVal? : Option Int) (buf : SpyBuf) :
    Except SpyErr (List Char × WriterState) :=
  match (((indeps ++ (buf.map Prod.fst).filter (fun k => ¬ indeps.contains k)).filter
      (fun k => k ≠ "none")).mapM (getBufferValue buf indeps)) with
  | .error e => .error e
  | .ok bufferValues =>
    match bufferValues.head? with
    | Option.none => .error .indexError
    | some innerSweepValues =>
      match (match startVal? with
             | some s => Except.ok s
             | Option.none =>
               match innerSweepValues.head? with
               | some v => Except.ok v
               | Option.none => Except.error SpyErr.indexError) with
      | .error e => .error e
      | .ok startVal =>
        match innerSweepValues.map (escapeFor startVal) with
        | [] => .error .indexError
        | _ :: t =>
          .ok ((((([] : List Char) :: t).zip
                  ((zipColumns bufferValues).map renderRow)).map
                    (fun q => q.1 ++ q.2)).flatten,
               ⟨indeps, some startVal⟩)

/-- `SpyviewWriter._write_buffer`: the axis-inference head followed by
the rendering body; returns the text handed to the writer function and
the updated writer state. -/
def writeBuffer (st : WriterState) (buf : SpyBuf) :
    Except SpyErr (List Char × WriterState) :=
  match computeIndeps st buf with
  | .error e => .error e
  | .ok indeps => writeBufferBody indeps st.innerSweepStartValue buf

/-- The canonicalizing merge at the head of `_reshape_dictionary`: the
incoming record (whose values are already value lists — a scalar arrives
as a one-element list after the `{"value": []}` append-merge) gains an
empty-valued entry for every configured delayed parameter it lacks. -/
def reshapeMergeStep (delayed : List String) (d : SpyBuf) : SpyBuf :=
  d ++ (delayed.filter (fun q => dictGet? d q = Option.none)).map
    (fun q => (q, ⟨"", [], false⟩))

/-- `set(len(...) for non-delayed params)`: the distinct value-list
lengths of the non-delayed entries. -/
def reshapeSizes (delayed : List String) (d : SpyBuf) : List Nat :=
  ((d.filter (fun kv => ¬ delayed.contains kv.1)).map
    (fun kv => kv.2.values.length)).dedup

/-- `parameter_properties["value"] *= max_size` for one-element value
lists (Python list repetition). -/
def repeatEntry (maxSize : Nat) (e : SpyEntry) : SpyEntry :=
  if e.values.length = 1 then
    ⟨e.unitName, (List.replicate maxSize e.values).flatten, e.indep⟩
  else e

/-- `SpyviewWriter._reshape_dictionary` (`d0` merged to `d` by
`reshapeMergeStep`, written out in full for each use). -/
def reshapeDictionary (delayed : List String) (d0 : SpyBuf) : Except SpyErr SpyBuf :=
  match reshapeSizes delayed (reshapeMergeStep delayed d0) with
  | [] => .ok (reshapeMergeStep delayed d0)
  | s0 :: rest =>
    if (s0 :: rest).length > 2 ∨
        (rest.foldr Nat.min s0 ≠ 1 ∧ rest.foldr Nat.max s0 > 1) then
      .error .valueError
    else if rest.foldr Nat.max s0 > 1 then
      if (reshapeMergeStep delayed d0).any (fun kv => kv.2.values.length != 1 &&
          kv.2.values.length == collapse_axis kv.2.values && kv.2.indep) then
        .ok ((reshapeMergeStep delayed d0).map
          (fun kv => (kv.1, repeatEntry (rest.foldr Nat.max s0) kv.2)))
      else
        .ok (dictSet ((reshapeMergeStep delayed d0).map
          (fun kv => (kv.1, repeatEntry (rest.foldr Nat.max s0) kv.2))) "index"
          ⟨"#", (List.range (rest.foldr Nat.max s0)).map Int.ofNat, true⟩)
    else
      -- `if not inner_axis_included` sits outside `if max_size > 1`, so a
      -- record of all-singleton values also receives the index column
      .ok (dictSet (reshapeMergeStep delayed d0) "index"
        ⟨"#", (List.range (rest.foldr Nat.max s0)).map Int.ofNat, true⟩)

/-- `SpyviewWriter.add`, up to the buffer update: the record is first
normalized by `_reshape_dictionary`, then merged into the buffer with
the fixed strategy (value lists append — existing buffer values first —
unit and flag replaced by the incoming entry when it carries them). -/
def SpyviewWriter_add (delayed : List String) (buf : SpyBuf) (record : SpyBuf) :
    Except SpyErr SpyBuf :=
  match reshapeDictionary delayed record with
  | .error e => .error e
  | .ok d =>
    .ok ((d.map (fun kv =>
      match dictGet? buf kv.1 with
      | some old => (kv.1, ⟨kv.2.unitName, old.values ++ kv.2.values,
                             kv.2.indep || old.indep⟩)
      | Option.none => kv)) ++
      buf.filter (fun kv => dictGet? d kv.1 = Option.none))

/-! ## Claim C9 (missing independent axis is fatal) -/

theorem getBufferValue_ne_noIndependent (buf : SpyBuf) (ind : List String) (k : String) :
    getBufferValue buf ind k ≠ Except.error SpyErr.noIndependent := by
  unfold getBufferValue
  by_cases hk : k = "empty"
  · rcases h1 : ind.head? with _ | fi
    · simp [hk, h1]
    · rcases h2 : dictGet? buf fi with _ | e <;> simp [hk, h1, h2]
  · rcases h2 : dictGet? buf k with _ | e <;> simp [hk, h2]

theorem mapM_getBufferValue_ne_noIndependent (buf : SpyBuf) (ind : List String) :
    ∀ ks : List String,
      ks.mapM (getBufferValue buf ind) ≠ Except.error SpyErr.noIndependent := by
  intro ks
  induction ks with
  | nil =>
    intro h
    cases h
  | cons k rest ih =>
    intro h
    rw [List.mapM_cons] at h
    rcases hf : getBufferValue buf ind k with e | v
    · rw [hf] at h
      have he : e = SpyErr.noIndependent := by
        cases h
        rfl
      exact getBufferValue_ne_noIndependent buf ind k (by rw [hf, he])
    · rw [hf] at h
      rcases hrest : rest.mapM (getBufferValue buf ind) with e' | vs
      · rw [hrest] at h
        have he : e' = SpyErr.noIndependent := by
          cases h
          rfl
        exact ih (by rw [hrest, he])
      · rw [hrest] at h
        cases h

theorem writeBufferBody_ne_noIndependent (ind : List String) (sv : Option Int)
    (buf : SpyBuf) :
    writeBufferBody ind sv buf ≠ Except.error SpyErr.noIndependent := by
  unfold writeBufferBody
  rcases hm : ((ind ++ (buf.map Prod.fst).filter (fun k => ¬ ind.contains k)).filter
      (fun k => k ≠ "none")).mapM (getBufferValue buf ind) with e | bvs
  · intro hcontra
    have he : e = SpyErr.noIndependent := by
      simpa using hcontra
    rw [he] at hm
    exact mapM_getBufferValue_ne_noIndependent buf ind _ hm
  · rcases hh : bvs.head? with _ | inner
    · simp [hh]
    · rcases sv with _ | s
      · rcases hih : inner.head? with _ | v
        · simp [hh, hih]
        · rcases hesc : inner.map (escapeFor v) with _ | ⟨e0, t⟩ <;> simp [hh, hih, hesc]
      · rcases hesc : inner.map (escapeFor s) with _ | ⟨e0, t⟩ <;> simp [hh, hesc]

/-- C9: on the first flush attempt (`_independent_parameters` not yet
determined), a buffer with no label carrying the `independent_parameter`
key raises the `RuntimeError` of `_find_independent_parameters` before
any output text is produced, while a buffer with at least one flagged
label never raises that error (whatever else may happen downstream). -/
theorem claim_C9_theorem (buf : SpyBuf) :
    ((∀ kv ∈ buf, kv.2.indep = false) →
      writeBuffer ⟨[], Option.none⟩ buf = .error .noIndependent) ∧
    ((∃ kv ∈ buf, kv.2.indep = true) →
      writeBuffer ⟨[], Option.none⟩ buf ≠ .error .noIndependent) := by
  constructor
  · intro hall
    have hfilter : buf.filter (fun kv => kv.2.indep) = [] := by
      rw [List.filter_eq_nil_iff]
      intro kv hkv
      rw [hall kv hkv]
      exact Bool.false_ne_true
    unfold writeBuffer computeIndeps findIndependentParameters independentCollapsed
    rw [hfilter]
    rfl
  · intro hex
    have hfilter : ¬ (buf.filter (fun kv => kv.2.indep)).isEmpty = true := by
      obtain ⟨kv, hkv, hind⟩ := hex
      intro hemp
      rw [List.isEmpty_iff] at hemp
      have : kv ∈ buf.filter (fun kv => kv.2.indep) :=
        List.mem_filter.mpr ⟨hkv, by rw [hind]⟩
      rw [hemp] at this
      cases this
    have hemp : (independentCollapsed buf).isEmpty = false := by
      unfold independentCollapsed
      rcases hf : buf.filter (fun kv => kv.2.indep) with _ | ⟨kv0, rest⟩
      · rw [hf] at hfilter
        exact absurd rfl hfilter
      · rw [hf]
        rfl
    have hfind : findIndependentParameters buf =
        .ok ((List.insertionSort collapseGE (independentCollapsed buf)).map Prod.fst) := by
      unfold findIndependentParameters
      rw [if_neg]
      rw [hemp]
      exact Bool.false_ne_true
    have hci : computeIndeps ⟨[], Option.none⟩ buf =
        .ok (padIndeps ((List.insertionSort collapseGE (independentCollapsed buf)).map
          Prod.fst)) := by
      show (match findIndependentParameters buf with
        | .ok ind => (Except.ok (padIndeps ind) : Except SpyErr (List String))
        | .error e => .error e) = _
      rw [hfind]
    unfold writeBuffer
    rw [hci]
    exact writeBufferBody_ne_noIndependent _ _ _

/-- C9, witness: a two-column buffer with no flag raises; flagging `x`
suppresses the error. -/
theorem claim_C9_witness :
    writeBuffer ⟨[], Option.none⟩
      [("x", ⟨"u", [0, 1], false⟩), ("y", ⟨"v", [3, 4], false⟩)] =
        .error .noIndependent ∧
    writeBuffer ⟨[], Option.none⟩
      [("x", ⟨"u", [0, 1], true⟩), ("y", ⟨"v", [3, 4], false⟩)] ≠
        .error .noIndependent := by
  constructor
  · exact (claim_C9_theorem _).1 (by decide)
  · exact (claim_C9_theorem _).2 ⟨("x", ⟨"u", [0, 1], true⟩), by decide, rfl⟩

/-! ## Claim C3, counterexample part (collapse count counts the wrap-around) -/

/-- C3, counterexample to "collapse count = number of adjacent-row
positions at which the value changes": `np.roll` compares cyclically, so
for the independent axis `[0, 1]` the code computes 2 (the wrap-around
pair (1, 0) also differs) while the rows have a single adjacent change. -/
theorem claim_C3_counterexample :
    independentCollapsed [("y", ⟨"v", [0, 1], true⟩)] = [("y", 2)] ∧
    specAdjacentChanges [0, 1] = 1 ∧ (2 : Nat) ≠ 1 := by
  refine ⟨rfl, rfl, ?_⟩
  decide

/-! ## Claim C10, counterexample part (equal multi-lengths also raise) -/

/-- C10, counterexample to the claimed error shape: a record whose value
lists all share one length greater than one (here a single entry of
length 2 — one distinct length, so neither "more than two distinct
lengths" nor "two distinct lengths both ﹥ 1" holds) is nevertheless
rejected: `min_size != 1 and max_size > 1` fires. -/
theorem claim_C10_counterexample :
    reshapeDictionary [] [("x", ⟨"u", [1, 2], true⟩)] = .error .valueError ∧
    reshapeSizes [] (reshapeMergeStep [] [("x", ⟨"u", [1, 2], true⟩)]) = [2] := by
  exact ⟨rfl, rfl⟩

/-! ## Claim C3 (axis inference order), amended part -/

/-- The collapse count of a buffered label (0 if absent). -/
def bufCollapse (buf : SpyBuf) (k : String) : Nat :=
  match dictGet? buf k with
  | some e => collapse_axis e.values
  | Option.none => 0

/-- Inserting into a sorted list with the key-descending relation keeps
the stable-sort invariant: strictly smaller key after, ties keep the
original precedence `R`. -/
theorem orderedInsert_stable (R : (String × Nat) → (String × Nat) → Prop)
    (x : String × Nat) :
    ∀ s : List (String × Nat), s.Sorted collapseGE →
      s.Pairwise (fun a b => b.2 < a.2 ∨ (a.2 = b.2 ∧ R a b)) →
      (∀ y ∈ s, R x y) →
      (s.orderedInsert collapseGE x).Pairwise
        (fun a b => b.2 < a.2 ∨ (a.2 = b.2 ∧ R a b)) := by
  intro s
  induction s with
  | nil =>
    intro _ _ _
    exact List.pairwise_singleton _ _
  | cons y ys ih =>
    intro hsort hpair hR
    show (if collapseGE x y then x :: y :: ys
          else y :: List.orderedInsert collapseGE x ys).Pairwise _
    by_cases hxy : collapseGE x y
    · rw [if_pos hxy]
      rw [List.pairwise_cons]
      constructor
      · intro z hz
        rcases List.mem_cons.mp hz with hz | hz
        · subst hz
          rcases Nat.lt_or_ge z.2 x.2 with h | h
          · exact Or.inl h
          · exact Or.inr ⟨Nat.le_antisymm h hxy, hR z (List.mem_cons_self z ys)⟩
        · have hzy : collapseGE y z := List.rel_of_sorted_cons hsort z hz
          have hle : z.2 ≤ x.2 := Nat.le_trans hzy hxy
          rcases Nat.lt_or_ge z.2 x.2 with h | h
          · exact Or.inl h
          · exact Or.inr ⟨Nat.le_antisymm h hle, hR z (List.mem_cons_of_mem y hz)⟩
      · exact hpair
    · rw [if_neg hxy]
      rw [List.pairwise_cons]
      constructor
      · intro z hz
        rcases (List.mem_orderedInsert collapseGE).mp hz with hz | hz
        · subst hz
          exact Or.inl (Nat.lt_of_not_le hxy)
        · exact (List.pairwise_cons.mp hpair).1 z hz
      · exact ih hsort.of_cons (List.pairwise_cons.mp hpair).2
          (fun y' hy' => hR y' (List.mem_cons_of_mem y hy'))

/-- Stability of the model's sort: sorting with the key-descending
relation yields a pairwise ordering that is strictly descending in the
key, ties resolved by the original precedence `R`. -/
theorem insertionSort_stable (R : (String × Nat) → (String × Nat) → Prop) :
    ∀ l : List (String × Nat), l.Pairwise R →
      (List.insertionSort collapseGE l).Pairwise
        (fun a b => b.2 < a.2 ∨ (a.2 = b.2 ∧ R a b)) := by
  intro l
  induction l with
  | nil =>
    intro _
    exact List.Pairwise.nil
  | cons x xs ih =>
    intro hp
    show (List.orderedInsert collapseGE x (List.insertionSort collapseGE xs)).Pairwise _
    apply orderedInsert_stable R x _ (List.sorted_insertionSort collapseGE xs)
      (ih (List.pairwise_cons.mp hp).2)
    intro y hy
    exact (List.pairwise_cons.mp hp).1 y ((List.mem_insertionSort collapseGE).mp hy)

/-- In a duplicate-free dict, any member pair is what lookup returns. -/
theorem dictGet?_of_mem_nodup {α : Type} {buf : Dict α} {k : String} {e : α}
    (hnd : (buf.map Prod.fst).Nodup) (hmem : (k, e) ∈ buf) :
    dictGet? buf k = some e := by
  induction buf with
  | nil => cases hmem
  | cons kv rest ih =>
    have hnd2 : (kv.1 :: rest.map Prod.fst).Nodup := by simpa using hnd
    rcases List.mem_cons.mp hmem with h | h
    · rw [← h]
      unfold dictGet?
      simp
    · have hk : ¬ kv.1 = k := by
        intro heq
        apply (List.nodup_cons.mp hnd2).1
        rw [heq]
        exact List.mem_map.mpr ⟨(k, e), h, rfl⟩
      unfold dictGet?
      rw [List.find?_cons]
      simp only [hk, decide_eq_false, Bool.false_eq_true]
      exact ih (by simpa using (List.nodup_cons.mp hnd2).2) h

/-- A duplicate-free list is pairwise strictly increasing in `indexOf`. -/
theorem nodup_pairwise_indexOf (l : List String) (hnd : l.Nodup) :
    l.Pairwise (fun a b => l.indexOf a < l.indexOf b) := by
  induction l with
  | nil => exact List.Pairwise.nil
  | cons x xs ih =>
    rw [List.pairwise_cons]
    have hx : x ∉ xs := (List.nodup_cons.mp hnd).1
    have hxs : xs.Nodup := (List.nodup_cons.mp hnd).2
    constructor
    · intro b hb
      have hbx : b ≠ x := fun h => hx (h ▸ hb)
      rw [List.indexOf_cons_self, List.indexOf_cons_ne xs hbx.symm]
      omega
    · apply (ih hxs).imp_of_mem
      intro a b ha hb hab
      have hax : a ≠ x := fun h => hx (h ▸ ha)
      have hbx : b ≠ x := fun h => hx (h ▸ hb)
      rw [List.indexOf_cons_ne xs hax.symm, List.indexOf_cons_ne xs hbx.symm]
      omega

/-- Collapse counts recorded in `independent_collapsed` agree with the
buffer lookup. -/
theorem bufCollapse_of_mem_independentCollapsed {buf : SpyBuf}
    (hnd : (buf.map Prod.fst).Nodup) :
    ∀ pr ∈ independentCollapsed buf, bufCollapse buf pr.1 = pr.2 := by
  intro pr hpr
  obtain ⟨kv, hkvmem, hkv⟩ := List.mem_map.mp hpr
  have hbm : (kv.1, kv.2) ∈ buf := (List.mem_filter.mp hkvmem).1
  have hget : dictGet? buf kv.1 = some kv.2 := dictGet?_of_mem_nodup hnd hbm
  rw [← hkv]
  unfold bufCollapse
  rw [hget]

/-- The 12-row example buffer of the specification: axis `x` holds each
of 4 values for 3 consecutive rows, axis `y` takes 12 distinct values. -/
def exampleBuf12 : SpyBuf :=
  [("x", ⟨"u", [0, 0, 0, 1, 1, 1, 2, 2, 2, 3, 3, 3], true⟩),
   ("y", ⟨"v", [0, 1, 2, 3, 4, 5, 6, 7, 8, 9, 10, 11], true⟩)]

/-- C3 (amended): for every buffer (with distinct labels) on which axis
inference succeeds, the returned list is a permutation of the
independent-flagged labels, ordered by strictly descending collapse
count — where the collapse count, computed by `np.roll`, is the number
of *cyclically* adjacent positions (wrap-around pair included) at which
the label's value changes — with ties in first-seen buffer order; in
particular `y` (12 distinct values) is ranked before `x` (4 values held
3 rows each). -/
theorem claim_C3_theorem (buf : SpyBuf) (out : List String)
    (hnd : (buf.map Prod.fst).Nodup)
    (hok : findIndependentParameters buf = .ok out) :
    out.Perm ((buf.filter (fun kv => kv.2.indep)).map Prod.fst) ∧
    out.Pairwise (fun la lb =>
      bufCollapse buf lb < bufCollapse buf la ∨
      (bufCollapse buf la = bufCollapse buf lb ∧
        (buf.map Prod.fst).indexOf la < (buf.map Prod.fst).indexOf lb)) ∧
    findIndependentParameters exampleBuf12 = .ok ["y", "x"] := by
  have hout : out =
      (List.insertionSort collapseGE (independentCollapsed buf)).map Prod.fst := by
    unfold findIndependentParameters at hok
    rcases h : (independentCollapsed buf).isEmpty with _ | _
    · rw [h] at hok
      simp only [Bool.false_eq_true, if_false] at hok
      cases hok
      rfl
    · rw [h] at hok
      simp only [if_true] at hok
      cases hok
  subst hout
  refine ⟨?_, ?_, rfl⟩
  · have hperm := (List.perm_insertionSort collapseGE (independentCollapsed buf)).map
      Prod.fst
    apply hperm.trans
    unfold independentCollapsed
    rw [List.map_map]
    exact List.Perm.refl _
  · -- the original-precedence relation: first-seen (index) order in the buffer
    have hRbuf : (independentCollapsed buf).Pairwise
        (fun a b => (buf.map Prod.fst).indexOf a.1 < (buf.map Prod.fst).indexOf b.1) := by
      unfold independentCollapsed
      have hbuf : buf.Pairwise (fun kv kv' =>
          (buf.map Prod.fst).indexOf kv.1 < (buf.map Prod.fst).indexOf kv'.1) := by
        have hfst := nodup_pairwise_indexOf (buf.map Prod.fst) hnd
        exact List.Pairwise.of_map Prod.fst (fun a b h => h) hfst
      exact (hbuf.filter (fun kv => kv.2.indep)).map
        (fun kv : String × SpyEntry => (kv.1, collapse_axis kv.2.values))
        (fun a b hab => hab)
    have hstable := insertionSort_stable
      (fun a b => (buf.map Prod.fst).indexOf a.1 < (buf.map Prod.fst).indexOf b.1)
      (independentCollapsed buf) hRbuf
    rw [List.pairwise_map]
    apply hstable.imp_of_mem
    intro a b ha hb hab
    have hcA := bufCollapse_of_mem_independentCollapsed hnd a
      ((List.mem_insertionSort collapseGE).mp ha)
    have hcB := bufCollapse_of_mem_independentCollapsed hnd b
      ((List.mem_insertionSort collapseGE).mp hb)
    rcases hab with h | ⟨heq, hidx⟩
    · exact Or.inl (by rw [hcA, hcB]; exact h)
    · exact Or.inr ⟨by rw [hcA, hcB]; exact heq, hidx⟩

/-- C3, witness: the amended theorem applied to the 12-row example
buffer, whose inferred order is `["y", "x"]`. -/
theorem claim_C3_witness :
    (["y", "x"] : List String).Perm
      ((exampleBuf12.filter (fun kv => kv.2.indep)).map Prod.fst) := by
  have h := claim_C3_theorem exampleBuf12 ["y", "x"] (by decide) rfl
  exact h.1

theorem dictGet?_map_entry {α β : Type} (g : α → β) (d : Dict α) (k : String) :
    dictGet? (d.map (fun kv => (kv.1, g kv.2))) k = (dictGet? d k).map g := by
  induction d with
  | nil => rfl
  | cons kv rest ih
  =>
    unfold dictGet?
    rw [List.map_cons, List.find?_cons, List.find?_cons]
    by_cases h : kv.1 = k
    · simp [h]
    · simp only [h, decide_eq_false, Bool.false_eq_true]
      exact ih

/-- C10 (amended): writing `d` for the record after the canonicalizing
merge and `sizes` for the set of its non-delayed value-list lengths, a
record reaching `_reshape_dictionary` with `sizes` non-empty raises
`ValueError` exactly when `len(sizes) > 2` or (`min(sizes) ≠ 1` and
`max(sizes) > 1`) — in particular a record whose value lists all share
one length greater than one is rejected, not normalized; when it
passes with `max_size > 1`, every length-1 entry is repeated to length
`max_size` and the others are unchanged, and when no entry is a fully
varying independent axis (value-list length equal to its cyclic
collapse count, flagged independent), an extra independent entry
`"index"` with unit `"#"` and values `[0 … max_size-1]` is stored. -/
theorem claim_C10_theorem (delayed : List String) (d0 : SpyBuf) (s0 : Nat)
    (srest : List Nat)
    (hsz : reshapeSizes delayed (reshapeMergeStep delayed d0) = s0 :: srest) :
    (reshapeDictionary delayed d0 = .error .valueError ↔
      (s0 :: srest).length > 2 ∨
        (srest.foldr Nat.min s0 ≠ 1 ∧ srest.foldr Nat.max s0 > 1)) ∧
    (∀ res, reshapeDictionary delayed d0 = .ok res →
      srest.foldr Nat.max s0 > 1 →
      (∀ k e, dictGet? (reshapeMergeStep delayed d0) k = some e → k ≠ "index" →
        (e.values.length = 1 →
          dictGet? res k = some ⟨e.unitName,
            (List.replicate (srest.foldr Nat.max s0) e.values).flatten, e.indep⟩) ∧
        (e.values.length ≠ 1 → dictGet? res k = some e)) ∧
      ((¬ ∃ kv ∈ reshapeMergeStep delayed d0, kv.2.values.length ≠ 1 ∧
          kv.2.values.length = collapse_axis kv.2.values ∧ kv.2.indep = true) →
        dictGet? res "index" =
          some ⟨"#", (List.range (srest.foldr Nat.max s0)).map Int.ofNat, true⟩)) := by
  have hred : reshapeDictionary delayed d0 =
      (if (s0 :: srest).length > 2 ∨
          (srest.foldr Nat.min s0 ≠ 1 ∧ srest.foldr Nat.max s0 > 1) then
        .error .valueError
      else if srest.foldr Nat.max s0 > 1 then
        if (reshapeMergeStep delayed d0).any (fun kv => kv.2.values.length != 1 &&
            kv.2.values.length == collapse_axis kv.2.values && kv.2.indep) then
          .ok ((reshapeMergeStep delayed d0).map
            (fun kv => (kv.1, repeatEntry (srest.foldr Nat.max s0) kv.2)))
        else
          .ok (dictSet ((reshapeMergeStep delayed d0).map
            (fun kv => (kv.1, repeatEntry (srest.foldr Nat.max s0) kv.2))) "index"
            ⟨"#", (List.range (srest.foldr Nat.max s0)).map Int.ofNat, true⟩)
      else
        .ok (dictSet (reshapeMergeStep delayed d0) "index"
          ⟨"#", (List.range (srest.foldr Nat.max s0)).map Int.ofNat, true⟩)) := by
    unfold reshapeDictionary
    rw [hsz]
  constructor
  · rw [hred]
    by_cases hcond : (s0 :: srest).length > 2 ∨
        (srest.foldr Nat.min s0 ≠ 1 ∧ srest.foldr Nat.max s0 > 1)
    · rw [if_pos hcond]
      exact ⟨fun _ => hcond, fun _ => rfl⟩
    · rw [if_neg hcond]
      by_cases hmax : srest.foldr Nat.max s0 > 1
      · rw [if_pos hmax]
        by_cases hany : (reshapeMergeStep delayed d0).any
            (fun kv => kv.2.values.length != 1 &&
              kv.2.values.length == collapse_axis kv.2.values && kv.2.indep)
        · rw [if_pos hany]
          exact ⟨fun h => Except.noConfusion h, fun hc => absurd hc hcond⟩
        · rw [if_neg hany]
          exact ⟨fun h => Except.noConfusion h, fun hc => absurd hc hcond⟩
      · rw [if_neg hmax]
        exact ⟨fun h => Except.noConfusion h, fun hc => absurd hc hcond⟩
  · intro res hok hmax
    rw [hred] at hok
    by_cases hcond : (s0 :: srest).length > 2 ∨
        (srest.foldr Nat.min s0 ≠ 1 ∧ srest.foldr Nat.max s0 > 1)
    · rw [if_pos hcond] at hok
      cases hok
    · rw [if_neg hcond, if_pos hmax] at hok
      by_cases hany : (reshapeMergeStep delayed d0).any
          (fun kv => kv.2.values.length != 1 &&
            kv.2.values.length == collapse_axis kv.2.values && kv.2.indep)
      · rw [if_pos hany] at hok
        cases hok
        constructor
        · intro k e hke hkidx
          have hmap := dictGet?_map_entry (repeatEntry (srest.foldr Nat.max s0))
            (reshapeMergeStep delayed d0) k
          rw [hke] at hmap
          constructor
          · intro hlen
            rw [hmap, Option.map_some']
            unfold repeatEntry
            rw [if_pos hlen]
          · intro hlen
            rw [hmap, Option.map_some']
            unfold repeatEntry
            rw [if_neg hlen]
        · intro hnoinner
          exfalso
          apply hnoinner
          obtain ⟨kv, hkv, hp⟩ := List.any_eq_true.mp hany
          refine ⟨kv, hkv, ?_⟩
          have hp' := hp
          simp only [Bool.and_eq_true, bne_iff_ne, beq_iff_eq] at hp'
          exact ⟨hp'.1.1, hp'.1.2, hp'.2⟩
      · rw [if_neg hany] at hok
        cases hok
        constructor
        · intro k e hke hkidx
          rw [dictGet?_dictSet]
          rw [if_neg hkidx]
          have hmap := dictGet?_map_entry (repeatEntry (srest.foldr Nat.max s0))
            (reshapeMergeStep delayed d0) k
          rw [hke] at hmap
          constructor
          · intro hlen
            rw [hmap, Option.map_some']
            unfold repeatEntry
            rw [if_pos hlen]
          · intro hlen
            rw [hmap, Option.map_some']
            unfold repeatEntry
            rw [if_neg hlen]
        · intro hnoinner
          rw [dictGet?_dictSet]
          rw [if_pos rfl]

/-- C10, witness: a record with a scalar gate voltage and a length-3
current trace is normalized — the scalar repeated to length 3 and the
synthetic `"index"` axis appended — while its sizes set is `{1, 3}`. -/
theorem claim_C10_witness :
    (reshapeDictionary [] [("g", ⟨"V", [5], true⟩), ("I", ⟨"A", [1, 2, 3], false⟩)]
      = .error .valueError ↔ False) ∧
    dictGet? ((reshapeDictionary []
        [("g", ⟨"V", [5], true⟩), ("I", ⟨"A", [1, 2, 3], false⟩)]).toOption.getD [])
      "index" = some ⟨"#", [0, 1, 2], true⟩ ∧
    dictGet? ((reshapeDictionary []
        [("g", ⟨"V", [5], true⟩), ("I", ⟨"A", [1, 2, 3], false⟩)]).toOption.getD [])
      "g" = some ⟨"V", [5, 5, 5], true⟩ := by
  have h := claim_C10_theorem [] [("g", ⟨"V", [5], true⟩), ("I", ⟨"A", [1, 2, 3], false⟩)]
    1 [3] rfl
  have h2 := h.2 ((reshapeDictionary []
      [("g", ⟨"V", [5], true⟩), ("I", ⟨"A", [1, 2, 3], false⟩)]).toOption.getD [])
    rfl (by decide)
  refine ⟨?_, ?_, ?_⟩
  · rw [h.1]
    constructor
    · intro hc
      rcases hc with hc | hc
      · exact absurd hc (by decide)
      · exact absurd hc (by decide)
    · intro hc
      cases hc
  · exact h2.2 (by decide)
  · exact (h2.1 "g" ⟨"V", [5], true⟩ rfl (by decide)).1 rfl

/-! ## Claim C2 (block boundaries of a flushed grid)

To count the data rows and blank separator lines of the flushed text we
split the written character stream at newlines: a `"\n\n"` escape
produces an empty chunk (a blank line), a `"\n"` escape none. -/

/-- Split a character stream at `'\n'` (the line structure of the
written text; `n + 1` chunks for `n` newlines). -/
def splitNl : List Char → List (List Char)
  | [] => [[]]
  | c :: cs =>
    if c = '\n' then [] :: splitNl cs
    else
      match splitNl cs with
      | [] => [[c]]
      | l :: ls => (c :: l) :: ls

/-- The line/blank structure the specification describes: every row is
printed, preceded by a blank line exactly when it starts a block
(fastest-axis value back at its first-ever value), except the very
first row. -/
def specSpyviewLines (rows : List (List Char)) (isBlockStart : List Bool) :
    List (List Char) :=
  match rows, isBlockStart with
  | r :: rs, _ :: fs =>
    r :: (rs.zip fs).flatMap (fun q => if q.2 then [[], q.1] else [q.1])
  | _, _ => []

theorem splitNl_cons (c : Char) (cs : List Char) :
    splitNl (c :: cs) =
      if c = '\n' then [] :: splitNl cs
      else
        match splitNl cs with
        | [] => [[c]]
        | l :: ls => (c :: l) :: ls := rfl

theorem splitNl_ne_nil (cs : List Char) : splitNl cs ≠ [] := by
  induction cs with
  | nil => exact fun h => List.noConfusion h
  | cons c cs ih =>
    rw [splitNl_cons]
    by_cases hc : c = '\n'
    · rw [if_pos hc]
      exact fun h => List.noConfusion h
    · rw [if_neg hc]
      rcases h : splitNl cs with _ | ⟨l, ls⟩
      · exact fun h => List.noConfusion h
      · exact fun h => List.noConfusion h

theorem splitNl_no_nl (cs : List Char) (h : ∀ c ∈ cs, c ≠ '\n') :
    splitNl cs = [cs] := by
  induction cs with
  | nil => rfl
  | cons c cs ih =>
    rw [splitNl_cons]
    rw [if_neg (h c (List.mem_cons_self c cs))]
    rw [ih (fun c' hc' => h c' (List.mem_cons_of_mem c hc'))]

theorem splitNl_cons_nl (cs : List Char) : splitNl ('\n' :: cs) = [] :: splitNl cs := by
  rw [splitNl_cons, if_pos rfl]

theorem splitNl_append_no_nl (a b : List Char) (h : ∀ c ∈ a, c ≠ '\n') :
    splitNl (a ++ b) = (a ++ (splitNl b).headD []) :: (splitNl b).tail := by
  induction a with
  | nil =>
    rcases hsb : splitNl b with _ | ⟨h0, t⟩
    · exact absurd hsb (splitNl_ne_nil b)
    · simp [hsb]
  | cons c a ih =>
    have hc : ¬ c = '\n' := h c (List.mem_cons_self c a)
    have ha : ∀ c' ∈ a, c' ≠ '\n' := fun c' hc' => h c' (List.mem_cons_of_mem c hc')
    show splitNl (c :: (a ++ b)) = ((c :: a) ++ (splitNl b).headD []) :: (splitNl b).tail
    rw [splitNl_cons, if_neg hc, ih ha]
    rfl

/-- Digits are not newlines. -/
theorem digitChar_ne_nl (m : Nat) (hm : m < 10) : Char.ofNat (48 + m) ≠ '\n' := by
  interval_cases m <;> decide

theorem natStrAux_ne_nil (n : Nat) (acc : List Char) : natStrAux n acc ≠ [] := by
  induction n using Nat.strong_induction_on generalizing acc with
  | _ n ih =>
    unfold natStrAux
    by_cases h : n < 10
    · rw [dif_pos h]
      exact fun hcontra => List.noConfusion hcontra
    · rw [dif_neg h]
      exact ih (n / 10) (Nat.div_lt_self (by omega) (by omega)) _

theorem natStrAux_no_nl (n : Nat) :
    ∀ acc : List Char, (∀ c ∈ acc, c ≠ '\n') → ∀ c ∈ natStrAux n acc, c ≠ '\n' := by
  induction n using Nat.strong_induction_on with
  | _ n ih =>
    intro acc hacc c hc
    unfold natStrAux at hc
    by_cases h : n < 10
    · rw [dif_pos h] at hc
      rcases List.mem_cons.mp hc with h1 | h1
      · rw [h1]
        exact digitChar_ne_nl (n % 10) (Nat.mod_lt n (by omega))
      · exact hacc c h1
    · rw [dif_neg h] at hc
      refine ih (n / 10) (Nat.div_lt_self (by omega) (by omega)) _ ?_ c hc
      intro c' hc'
      rcases List.mem_cons.mp hc' with h1 | h1
      · rw [h1]
        exact digitChar_ne_nl (n % 10) (Nat.mod_lt n (by omega))
      · exact hacc c' h1

theorem intStr_ne_nil (i : Int) : intStr i ≠ [] := by
  rcases i with n | n
  · exact natStrAux_ne_nil n []
  · exact fun h => List.noConfusion h

theorem intStr_no_nl (i : Int) : ∀ c ∈ intStr i, c ≠ '\n' := by
  rcases i with n | n
  · exact natStrAux_no_nl n [] (fun c hc => absurd hc (List.not_mem_nil c))
  · intro c hc
    rcases List.mem_cons.mp hc with h1 | h1
    · rw [h1]
      decide
    · exact natStrAux_no_nl (n + 1) [] (fun c' hc' => absurd hc' (List.not_mem_nil c')) c h1

theorem tabJoin_no_nl (parts : List (List Char))
    (h : ∀ p ∈ parts, ∀ c ∈ p, c ≠ '\n') : ∀ c ∈ tabJoin parts, c ≠ '\n' := by
  induction parts with
  | nil =>
    intro c hc
    cases hc
  | cons s rest ih =>
    rcases rest with _ | ⟨s2, rest2⟩
    · intro c hc
      exact h s (List.mem_cons_self s []) c hc
    · intro c hc
      show c ≠ '\n'
      have hc' : c ∈ s ++ '\t' :: tabJoin (s2 :: rest2) := hc
      rcases List.mem_append.mp hc' with h1 | h1
      · exact h s (List.mem_cons_self s (s2 :: rest2)) c h1
      · rcases List.mem_cons.mp h1 with h2 | h2
        · rw [h2]
          decide
        · exact ih (fun p hp => h p (List.mem_cons_of_mem s hp)) c h2

theorem renderRow_no_nl (row : List Int) : ∀ c ∈ renderRow row, c ≠ '\n' := by
  apply tabJoin_no_nl
  intro p hp
  obtain ⟨v, _, hv⟩ := List.mem_map.mp hp
  rw [← hv]
  exact intStr_no_nl v

theorem renderRow_ne_nil (row : List Int) (h : row ≠ []) : renderRow row ≠ [] := by
  rcases row with _ | ⟨v, rest⟩
  · exact absurd rfl h
  · unfold renderRow
    rcases rest with _ | ⟨v2, rest2⟩
    · exact intStr_ne_nil v
    · show intStr v ++ '\t' :: tabJoin (intStr v2 :: rest2.map intStr) ≠ []
      intro hcontra
      rcases List.append_eq_nil.mp hcontra with ⟨_, h2⟩
      exact List.noConfusion h2

theorem escapeFor_pos (v0 v : Int) (h : v = v0) : escapeFor v0 v = ['\n', '\n'] := by
  unfold escapeFor
  rw [if_pos h]

theorem escapeFor_neg (v0 v : Int) (h : ¬ v = v0) : escapeFor v0 v = ['\n'] := by
  unfold escapeFor
  rw [if_neg h]

theorem splitNl_cons2_nl (cs : List Char) :
    splitNl (['\n', '\n'] ++ cs) = [] :: [] :: splitNl cs := by
  show splitNl ('\n' :: ('\n' :: cs)) = [] :: [] :: splitNl cs
  rw [splitNl_cons_nl, splitNl_cons_nl]

theorem splitNl_cons1_nl (cs : List Char) :
    splitNl (['\n'] ++ cs) = [] :: splitNl cs := by
  show splitNl ('\n' :: cs) = [] :: splitNl cs
  rw [splitNl_cons_nl]

/-- Splitting the rendered tail of the flush (escape ++ line for each
row after the first): each `"\n\n"` escape contributes a blank chunk
before its line; each `"\n"` contributes the line alone. -/
theorem splitNl_render_tail (v0 : Int) :
    ∀ (vs : List Int) (ls : List (List Char)),
      vs.length = ls.length →
      (∀ l ∈ ls, ∀ c ∈ l, c ≠ '\n') →
      splitNl ((((vs.map (escapeFor v0)).zip ls).map (fun q => q.1 ++ q.2)).flatten) =
        [] :: (ls.zip (vs.map (fun v => decide (v = v0)))).flatMap
          (fun q => if q.2 then [[], q.1] else [q.1]) := by
  intro vs
  induction vs with
  | nil =>
    intro ls hlen hnl
    rw [List.map_nil, List.zip_nil_left, List.map_nil, List.flatten_nil,
      List.map_nil, List.zip_nil_right, List.flatMap_nil]
    rfl
  | cons v vs ih =>
    intro ls hlen hnl
    rcases ls with _ | ⟨l, ls'⟩
    · simp at hlen
    · have hlen' : vs.length = ls'.length := by simpa using hlen
      have hnl_l : ∀ c ∈ l, c ≠ '\n' := hnl l (List.mem_cons_self l ls')
      have hnl' : ∀ l' ∈ ls', ∀ c ∈ l', c ≠ '\n' :=
        fun l' hl' => hnl l' (List.mem_cons_of_mem l hl')
      rw [List.map_cons, List.zip_cons_cons, List.map_cons, List.flatten_cons,
        List.map_cons, List.zip_cons_cons, List.flatMap_cons]
      by_cases hv : v = v0
      · rw [escapeFor_pos v0 v hv, List.append_assoc, splitNl_cons2_nl,
          splitNl_append_no_nl _ _ hnl_l, ih ls' hlen' hnl']
        simp [hv]
      · rw [escapeFor_neg v0 v hv, List.append_assoc, splitNl_cons1_nl,
          splitNl_append_no_nl _ _ hnl_l, ih ls' hlen' hnl']
        simp [hv]

/-- The non-blank chunks of the rendered tail are exactly the data
lines. -/
theorem chunks_filter_data (ls : List (List Char)) :
    ∀ fs : List Bool, ls.length = fs.length →
      (∀ l ∈ ls, l.isEmpty = false) →
      ((ls.zip fs).flatMap (fun q => if q.2 then [[], q.1] else [q.1])).filter
        (fun l => !l.isEmpty) = ls := by
  induction ls with
  | nil => intro fs _ _; rfl
  | cons l ls' ih =>
    intro fs hlen hne
    rcases fs with _ | ⟨f, fs'⟩
    · simp at hlen
    · have hlen' : ls'.length = fs'.length := by simpa using hlen
      have hl : l.isEmpty = false := hne l (List.mem_cons_self l ls')
      have hne' : ∀ x ∈ ls', x.isEmpty = false :=
        fun x hx => hne x (List.mem_cons_of_mem l hx)
      rw [List.zip_cons_cons, List.flatMap_cons, List.filter_append, ih fs' hlen' hne']
      cases f
      · simp [hl]
      · simp [hl]

/-- The blank chunks of the rendered tail count the `True` block-start
flags. -/
theorem chunks_filter_blank (ls : List (List Char)) :
    ∀ fs : List Bool, ls.length = fs.length →
      (∀ l ∈ ls, l.isEmpty = false) →
      (((ls.zip fs).flatMap (fun q => if q.2 then [[], q.1] else [q.1])).filter
        (fun l => l.isEmpty)).length = fs.countP id := by
  induction ls with
  | nil =>
    intro fs hlen _
    rcases fs with _ | ⟨f, fs'⟩
    · rfl
    · simp at hlen
  | cons l ls' ih =>
    intro fs hlen hne
    rcases fs with _ | ⟨f, fs'⟩
    · simp at hlen
    · have hlen' : ls'.length = fs'.length := by simpa using hlen
      have hl : l.isEmpty = false := hne l (List.mem_cons_self l ls')
      have hne' : ∀ x ∈ ls', x.isEmpty = false :=
        fun x hx => hne x (List.mem_cons_of_mem l hx)
      rw [List.zip_cons_cons, List.flatMap_cons, List.filter_append,
        List.length_append, ih fs' hlen' hne', List.countP_cons]
      cases f
      · simp [hl]
      · simp [hl, Nat.add_comm]

theorem countP_flatten_replicate {α : Type} (P : α → Bool) (m : Nat) (l : List α) :
    ((List.replicate m l).flatten).countP P = m * l.countP P := by
  induction m with
  | zero => rw [Nat.zero_mul]; rfl
  | succ k ih =>
    rw [List.replicate_succ, List.flatten_cons, List.countP_append, ih,
      Nat.succ_mul, Nat.add_comm]

theorem length_flatten_replicate {α : Type} (m : Nat) (l : List α) :
    ((List.replicate m l).flatten).length = m * l.length := by
  induction m with
  | zero => rw [Nat.zero_mul]; rfl
  | succ k ih =>
    rw [List.replicate_succ, List.flatten_cons, List.length_append, ih,
      Nat.succ_mul, Nat.add_comm]

/-- `zip(*buffer_values)` on three equal-length columns: one row per
index. -/
theorem zipColumns_three (c1 c2 c3 : List Int) (L : Nat)
    (h1 : c1.length = L) (h2 : c2.length = L) (h3 : c3.length = L) :
    zipColumns [c1, c2, c3] =
      (List.range L).map (fun i => [c1.getD i 0, c2.getD i 0, c3.getD i 0]) := by
  have hmin : (([c2, c3].map List.length).foldr Nat.min c1.length) = L := by
    simp [h1, h2, h3, Nat.min_self]
  show (List.range (([c2, c3].map List.length).foldr Nat.min c1.length)).map
      (fun i => ([c1, c2, c3].map (fun col => col.getD i 0))) = _
  rw [hmin]
  exact List.map_congr_left (fun i _ => rfl)

/-- C2: for a full m-by-n grid buffer — inner (fastest) axis cycling
`v0 :: ivrest` for `m` repetitions, outer axis and measured column of
matching length, the inner axis collapsing at least as often as the
outer — a single `_write_buffer` flush succeeds, its text splits at
newlines into exactly the layout `specSpyviewLines` describes (a blank
line before every later row whose fastest-axis value equals the
first-ever value `v0`), with exactly `m * n` non-blank data rows and
`m - 1` blank separator lines. -/
theorem claim_C2_theorem (lx ly lz ux uy uz : String) (m : Nat) (v0 : Int)
    (ivrest outerCol zCol : List Int)
    (hm : 1 ≤ m)
    (hnd : ([lx, ly, lz, "empty", "none"] : List String).Nodup)
    (hv0 : v0 ∉ ivrest)
    (houter : outerCol.length = m * (v0 :: ivrest).length)
    (hzlen : zCol.length = m * (v0 :: ivrest).length)
    (hcol : collapse_axis outerCol ≤
      collapse_axis ((List.replicate m (v0 :: ivrest)).flatten)) :
    ∃ out st,
      writeBuffer ⟨[], Option.none⟩
        [(lx, ⟨ux, (List.replicate m (v0 :: ivrest)).flatten, true⟩),
         (ly, ⟨uy, outerCol, true⟩),
         (lz, ⟨uz, zCol, false⟩)] = .ok (out, st) ∧
      splitNl out = specSpyviewLines
        ((zipColumns [(List.replicate m (v0 :: ivrest)).flatten, outerCol, zCol]).map
          renderRow)
        (((List.replicate m (v0 :: ivrest)).flatten).map (fun v => decide (v = v0))) ∧
      ((splitNl out).filter (fun l => !l.isEmpty)).length = m * (v0 :: ivrest).length ∧
      ((splitNl out).filter (fun l => l.isEmpty)).length = m - 1 := by
  rcases List.nodup_cons.mp hnd with ⟨hlxmem, hnd2⟩
  rcases List.nodup_cons.mp hnd2 with ⟨hlymem, hnd3⟩
  rcases List.nodup_cons.mp hnd3 with ⟨hlzmem, -⟩
  have hlxly : lx ≠ ly := fun h => hlxmem (by rw [h]; simp)
  have hlxlz : lx ≠ lz := fun h => hlxmem (by rw [h]; simp)
  have hlxe : lx ≠ "empty" := fun h => hlxmem (by rw [h]; simp)
  have hlxn : lx ≠ "none" := fun h => hlxmem (by rw [h]; simp)
  have hlylz : ly ≠ lz := fun h => hlymem (by rw [h]; simp)
  have hlye : ly ≠ "empty" := fun h => hlymem (by rw [h]; simp)
  have hlyn : ly ≠ "none" := fun h => hlymem (by rw [h]; simp)
  have hlze : lz ≠ "empty" := fun h => hlzmem (by rw [h]; simp)
  have hlzn : lz ≠ "none" := fun h => hlzmem (by rw [h]; simp)
  rcases m with _ | mm
  · omega
  -- step 1: axis inference
  have hsort : List.insertionSort collapseGE
      [(lx, collapse_axis ((List.replicate (mm + 1) (v0 :: ivrest)).flatten)),
       (ly, collapse_axis outerCol)] =
      [(lx, collapse_axis ((List.replicate (mm + 1) (v0 :: ivrest)).flatten)),
       (ly, collapse_axis outerCol)] := by
    show List.orderedInsert collapseGE
        (lx, collapse_axis ((List.replicate (mm + 1) (v0 :: ivrest)).flatten))
        (List.insertionSort collapseGE [(ly, collapse_axis outerCol)]) = _
    rw [show List.insertionSort collapseGE [(ly, collapse_axis outerCol)] =
        [(ly, collapse_axis outerCol)] from rfl]
    exact List.orderedInsert_of_le collapseGE [] hcol
  have hfind : findIndependentParameters
      [(lx, ⟨ux, (List.replicate (mm + 1) (v0 :: ivrest)).flatten, true⟩),
       (ly, ⟨uy, outerCol, true⟩),
       (lz, ⟨uz, zCol, false⟩)] = .ok [lx, ly] := by
    show Except.ok ((List.insertionSort collapseGE
        [(lx, collapse_axis ((List.replicate (mm + 1) (v0 :: ivrest)).flatten)),
         (ly, collapse_axis outerCol)]).map Prod.fst) = _
    rw [hsort]
    rfl
  have hci : computeIndeps ⟨[], Option.none⟩
      [(lx, ⟨ux, (List.replicate (mm + 1) (v0 :: ivrest)).flatten, true⟩),
       (ly, ⟨uy, outerCol, true⟩),
       (lz, ⟨uz, zCol, false⟩)] = .ok [lx, ly, "none"] := by
    unfold computeIndeps
    rw [if_pos (show ((⟨[], Option.none⟩ : WriterState)).independentParameters.isEmpty
      = true from rfl), hfind]
    rfl
  have hwb : writeBuffer ⟨[], Option.none⟩
      [(lx, ⟨ux, (List.replicate (mm + 1) (v0 :: ivrest)).flatten, true⟩),
       (ly, ⟨uy, outerCol, true⟩),
       (lz, ⟨uz, zCol, false⟩)] =
      writeBufferBody [lx, ly, "none"] Option.none
        [(lx, ⟨ux, (List.replicate (mm + 1) (v0 :: ivrest)).flatten, true⟩),
         (ly, ⟨uy, outerCol, true⟩),
         (lz, ⟨uz, zCol, false⟩)] := by
    unfold writeBuffer
    rw [hci]
  -- step 2: the ordered key list collapses to [lx, ly, lz]
  have hfilter1 : ([lx, ly, lz].filter
      (fun k => ¬ ([lx, ly, "none"] : List String).contains k)) = [lz] := by
    simp [Ne.symm hlxlz, Ne.symm hlylz, hlzn]
  have hkeys : ((([lx, ly, "none"] : List String) ++
      (([(lx, (⟨ux, (List.replicate (mm + 1) (v0 :: ivrest)).flatten, true⟩ : SpyEntry)),
        (ly, ⟨uy, outerCol, true⟩),
        (lz, ⟨uz, zCol, false⟩)].map Prod.fst).filter
          (fun k => ¬ ([lx, ly, "none"] : List String).contains k))).filter
      (fun k => k ≠ "none")) = [lx, ly, lz] := by
    rw [show ([(lx, (⟨ux, (List.replicate (mm + 1) (v0 :: ivrest)).flatten, true⟩ : SpyEntry)),
        (ly, ⟨uy, outerCol, true⟩),
        (lz, ⟨uz, zCol, false⟩)].map Prod.fst) = [lx, ly, lz] from rfl]
    rw [hfilter1]
    simp [hlxn, hlyn, hlzn]
  -- step 3: the column lookups
  have hglx : getBufferValue
      [(lx, ⟨ux, (List.replicate (mm + 1) (v0 :: ivrest)).flatten, true⟩),
       (ly, ⟨uy, outerCol, true⟩),
       (lz, ⟨uz, zCol, false⟩)] [lx, ly, "none"] lx =
      .ok ((List.replicate (mm + 1) (v0 :: ivrest)).flatten) := by
    unfold getBufferValue
    rw [if_neg hlxe]
    unfold dictGet?
    rw [List.find?_cons_of_pos _ (by simp)]
    rfl
  have hgly : getBufferValue
      [(lx, ⟨ux, (List.replicate (mm + 1) (v0 :: ivrest)).flatten, true⟩),
       (ly, ⟨uy, outerCol, true⟩),
       (lz, ⟨uz, zCol, false⟩)] [lx, ly, "none"] ly = .ok outerCol := by
    unfold getBufferValue
    rw [if_neg hlye]
    unfold dictGet?
    rw [List.find?_cons_of_neg _ (by simp [hlxly]),
      List.find?_cons_of_pos _ (by simp)]
    rfl
  have hglz : getBufferValue
      [(lx, ⟨ux, (List.replicate (mm + 1) (v0 :: ivrest)).flatten, true⟩),
       (ly, ⟨uy, outerCol, true⟩),
       (lz, ⟨uz, zCol, false⟩)] [lx, ly, "none"] lz = .ok zCol := by
    unfold getBufferValue
    rw [if_neg hlze]
    unfold dictGet?
    rw [List.find?_cons_of_neg _ (by simp [hlxlz]),
      List.find?_cons_of_neg _ (by simp [hlylz]),
      List.find?_cons_of_pos _ (by simp)]
    rfl
  have hscrut : ((([lx, ly, "none"] ++
      (([(lx, (⟨ux, (List.replicate (mm + 1) (v0 :: ivrest)).flatten, true⟩ : SpyEntry)),
        (ly, ⟨uy, outerCol, true⟩),
        (lz, ⟨uz, zCol, false⟩)].map Prod.fst).filter
          (fun k => ¬ ([lx, ly, "none"] : List String).contains k))).filter
      (fun k => k ≠ "none")).mapM (getBufferValue
        [(lx, ⟨ux, (List.replicate (mm + 1) (v0 :: ivrest)).flatten, true⟩),
         (ly, ⟨uy, outerCol, true⟩),
         (lz, ⟨uz, zCol, false⟩)] [lx, ly, "none"])) =
      Except.ok [(List.replicate (mm + 1) (v0 :: ivrest)).flatten, outerCol, zCol] := by
    rw [hkeys, List.mapM_cons, hglx, List.mapM_cons, hgly, List.mapM_cons, hglz,
      List.mapM_nil]
    rfl
  -- step 4: the body evaluates
  have hbody : writeBufferBody [lx, ly, "none"] Option.none
      [(lx, ⟨ux, (List.replicate (mm + 1) (v0 :: ivrest)).flatten, true⟩),
       (ly, ⟨uy, outerCol, true⟩),
       (lz, ⟨uz, zCol, false⟩)] =
      Except.ok
        (((((([] : List Char) ::
            ((ivrest ++ (List.replicate mm (v0 :: ivrest)).flatten).map
              (escapeFor v0))).zip
          ((zipColumns [(List.replicate (mm + 1) (v0 :: ivrest)).flatten, outerCol,
            zCol]).map renderRow)).map (fun q => q.1 ++ q.2)).flatten),
         ⟨[lx, ly, "none"], some v0⟩) := by
    unfold writeBufferBody
    rw [hscrut]
    rfl
  -- abbreviate the inner-axis tail
  obtain ⟨icTail, hicT⟩ :
      ∃ t, ivrest ++ (List.replicate mm (v0 :: ivrest)).flatten = t := ⟨_, rfl⟩
  rw [hicT] at hbody
  have hICisic : (List.replicate (mm + 1) (v0 :: ivrest)).flatten = v0 :: icTail := by
    rw [List.replicate_succ, List.flatten_cons, List.cons_append, hicT]
  -- step 5: column and line lengths
  have hIClen : ((List.replicate (mm + 1) (v0 :: ivrest)).flatten).length =
      (mm + 1) * (v0 :: ivrest).length := length_flatten_replicate (mm + 1) (v0 :: ivrest)
  have hzcols : zipColumns [(List.replicate (mm + 1) (v0 :: ivrest)).flatten, outerCol,
      zCol] =
      (List.range ((mm + 1) * (v0 :: ivrest).length)).map
        (fun i => [((List.replicate (mm + 1) (v0 :: ivrest)).flatten).getD i 0,
          outerCol.getD i 0, zCol.getD i 0]) :=
    zipColumns_three _ _ _ _ hIClen houter hzlen
  have hKpos : 1 ≤ (mm + 1) * (v0 :: ivrest).length :=
    Nat.mul_pos (Nat.succ_pos mm) (by simp)
  obtain ⟨K, hK⟩ : ∃ K, (mm + 1) * (v0 :: ivrest).length = K := ⟨_, rfl⟩
  rw [hK] at hIClen houter hzlen hzcols hKpos ⊢
  have hlines_nl : ∀ l ∈ (zipColumns [(List.replicate (mm + 1) (v0 :: ivrest)).flatten,
      outerCol, zCol]).map renderRow, ∀ c ∈ l, c ≠ '\n' := by
    intro l hl
    obtain ⟨row, _, hrow⟩ := List.mem_map.mp hl
    rw [← hrow]
    exact renderRow_no_nl row
  have hlines_ne : ∀ l ∈ (zipColumns [(List.replicate (mm + 1) (v0 :: ivrest)).flatten,
      outerCol, zCol]).map renderRow, l.isEmpty = false := by
    intro l hl
    obtain ⟨row, hrowmem, hrow⟩ := List.mem_map.mp hl
    rw [hzcols] at hrowmem
    obtain ⟨i, _, hi⟩ := List.mem_map.mp hrowmem
    have hne := renderRow_ne_nil
      [((List.replicate (mm + 1) (v0 :: ivrest)).flatten).getD i 0,
        outerCol.getD i 0, zCol.getD i 0] (by simp)
    rw [← hrow, ← hi]
    rcases hr : renderRow [((List.replicate (mm + 1) (v0 :: ivrest)).flatten).getD i 0,
        outerCol.getD i 0, zCol.getD i 0] with _ | ⟨c, cs⟩
    · exact absurd hr hne
    · rfl
  have hlines_len : ((zipColumns [(List.replicate (mm + 1) (v0 :: ivrest)).flatten,
      outerCol, zCol]).map renderRow).length = K := by
    rw [List.length_map, hzcols, List.length_map, List.length_range]
  rcases hlines : (zipColumns [(List.replicate (mm + 1) (v0 :: ivrest)).flatten,
      outerCol, zCol]).map renderRow with _ | ⟨line0, linesTail⟩
  · rw [hlines] at hlines_len
    simp at hlines_len
    omega
  -- lengths of the tails
  have hicTail_len : icTail.length = K - 1 := by
    have h1 : ((List.replicate (mm + 1) (v0 :: ivrest)).flatten).length =
        icTail.length + 1 := by
      rw [hICisic]
      rfl
    omega
  have hlinesTail_len : linesTail.length = K - 1 := by
    rw [hlines] at hlines_len
    simp at hlines_len
    omega
  have hline0_nl : ∀ c ∈ line0, c ≠ '\n' :=
    hlines_nl line0 (by rw [hlines]; exact List.mem_cons_self _ _)
  have hline0_ne : line0.isEmpty = false :=
    hlines_ne line0 (by rw [hlines]; exact List.mem_cons_self _ _)
  have hTail_nl : ∀ l ∈ linesTail, ∀ c ∈ l, c ≠ '\n' :=
    fun l hl => hlines_nl l (by rw [hlines]; exact List.mem_cons_of_mem line0 hl)
  have hTail_ne : ∀ l ∈ linesTail, l.isEmpty = false :=
    fun l hl => hlines_ne l (by rw [hlines]; exact List.mem_cons_of_mem line0 hl)
  rw [hlines] at hbody
  -- step 6: the written text and its line split
  have hOUT : ((((([] : List Char) :: (icTail.map (escapeFor v0))).zip
        (line0 :: linesTail)).map (fun q => q.1 ++ q.2)).flatten) =
      line0 ++ (((icTail.map (escapeFor v0)).zip linesTail).map
        (fun q => q.1 ++ q.2)).flatten := by
    rw [List.zip_cons_cons, List.map_cons, List.flatten_cons, List.nil_append]
  have hlen2 : icTail.length = linesTail.length := by omega
  have hrest : splitNl ((((icTail.map (escapeFor v0)).zip linesTail).map
        (fun q => q.1 ++ q.2)).flatten) =
      [] :: (linesTail.zip (icTail.map (fun v => decide (v = v0)))).flatMap
        (fun q => if q.2 then [[], q.1] else [q.1]) :=
    splitNl_render_tail v0 icTail linesTail hlen2 hTail_nl
  have hsplitOUT : splitNl ((((([] : List Char) :: (icTail.map (escapeFor v0))).zip
        (line0 :: linesTail)).map (fun q => q.1 ++ q.2)).flatten) =
      line0 :: (linesTail.zip (icTail.map (fun v => decide (v = v0)))).flatMap
        (fun q => if q.2 then [[], q.1] else [q.1]) := by
    rw [hOUT, splitNl_append_no_nl _ _ hline0_nl, hrest]
    simp
  -- step 7: it matches the specified layout
  have hflags : ((List.replicate (mm + 1) (v0 :: ivrest)).flatten).map
        (fun v => decide (v = v0)) =
      true :: icTail.map (fun v => decide (v = v0)) := by
    rw [hICisic, List.map_cons]
    simp
  have hspec : specSpyviewLines (line0 :: linesTail)
        (((List.replicate (mm + 1) (v0 :: ivrest)).flatten).map
          (fun v => decide (v = v0))) =
      line0 :: (linesTail.zip (icTail.map (fun v => decide (v = v0)))).flatMap
        (fun q => if q.2 then [[], q.1] else [q.1]) := by
    rw [hflags]
    rfl
  -- step 8: the block-start flag count
  have hcount_block : List.countP (fun v => decide (v = v0)) (v0 :: ivrest) = 1 := by
    rw [List.countP_cons]
    have h0 : List.countP (fun v => decide (v = v0)) ivrest = 0 :=
      List.countP_eq_zero.mpr (fun a ha => by
        simp
        exact fun he => hv0 (he ▸ ha))
    rw [h0]
    simp
  have hcount_IC : List.countP (fun v => decide (v = v0))
      ((List.replicate (mm + 1) (v0 :: ivrest)).flatten) = mm + 1 := by
    rw [countP_flatten_replicate, hcount_block, Nat.mul_one]
  have hcount_tail : List.countP (fun v => decide (v = v0)) icTail = mm := by
    have h1 : List.countP (fun v => decide (v = v0))
        ((List.replicate (mm + 1) (v0 :: ivrest)).flatten) =
        List.countP (fun v => decide (v = v0)) icTail + 1 := by
      rw [hICisic, List.countP_cons]
      simp
    omega
  -- assemble
  refine ⟨((((([] : List Char) :: (icTail.map (escapeFor v0))).zip
      (line0 :: linesTail)).map (fun q => q.1 ++ q.2)).flatten),
    ⟨[lx, ly, "none"], some v0⟩, hwb.trans hbody, ?_, ?_, ?_⟩
  · rw [hsplitOUT, hspec]
  · rw [hsplitOUT, List.filter_cons,
      chunks_filter_data linesTail (icTail.map (fun v => decide (v = v0)))
        (by rw [List.length_map]; omega) hTail_ne]
    simp [hline0_ne]
    omega
  · rw [hsplitOUT, List.filter_cons,
      if_neg (by rw [hline0_ne]; exact Bool.false_ne_true),
      chunks_filter_blank linesTail (icTail.map (fun v => decide (v = v0)))
        (by rw [List.length_map]; omega) hTail_ne,
      List.countP_map]
    show List.countP (fun v => decide (v = v0)) icTail = mm + 1 - 1
    rw [hcount_tail]
    omega

/-- C2, witness: a 2-by-2 grid (inner axis [0, 1] twice, outer axis
[0, 0, 1, 1], measured column [0, 1, 1, 2]) flushes to 4 data rows and
1 blank separator in the specified layout. -/
theorem claim_C2_witness :
    ∃ out st,
      writeBuffer ⟨[], Option.none⟩
        [("x", ⟨"u", (List.replicate 2 ((0 : Int) :: [1])).flatten, true⟩),
         ("y", ⟨"v", [0, 0, 1, 1], true⟩),
         ("z", ⟨"w", [0, 1, 1, 2], false⟩)] = .ok (out, st) ∧
      splitNl out = specSpyviewLines
        ((zipColumns [(List.replicate 2 ((0 : Int) :: [1])).flatten, [0, 0, 1, 1],
          [0, 1, 1, 2]]).map renderRow)
        (((List.replicate 2 ((0 : Int) :: [1])).flatten).map (fun v => decide (v = 0))) ∧
      ((splitNl out).filter (fun l => !l.isEmpty)).length = 2 * ((0 : Int) :: [1]).length ∧
      ((splitNl out).filter (fun l => l.isEmpty)).length = 2 - 1 :=
  claim_C2_theorem "x" "y" "z" "u" "v" "w" 2 0 [1] [0, 0, 1, 1] [0, 1, 1, 2]
    (by decide) (by decide) (by decide) (by decide) (by decide) (by decide)

end PySweep
